import Mathlib

/-! Verification of `binary_heap` (src/binary_heap.h)

A shallow embedding of the class template `binary_heap<Type, Container, Compare>`.

* The backing `Container` (by default `std::vector<Type>`) is a `List α`.
* `Compare` is a function `α → α → Bool`, stored in the heap next to the container,
  exactly as the two private members `container` and `compare`.
* `size_type` indices are natural numbers.  An index handed to `get_left_index` or
  `get_right_index` is always the index of a live element or `0`, and a `std::vector`
  never holds more than `PTRDIFF_MAX` elements, so `index * 2 + 2` does not wrap there.
* Every `operator[]`, `front()` and `back()` is a checked access: an index outside the
  live range (undefined behaviour in C++) is reported as `Fault.out_of_range`.
* The two loops take a bound (fuel) on the number of iterations; a run that would need
  more reports `Fault.out_of_fuel`.  `push`, `pop` and the client programs pass their
  fuel to every loop they start, and a result, once returned, is the same for every
  larger amount of fuel (`push_more_fuel`, `pop_more_fuel`).
-/

namespace Pharap

/-- Ways in which a run of the embedded code can fail to produce a state. -/
inductive Fault where
  | out_of_range
  | out_of_fuel
  deriving DecidableEq

/-- The class `binary_heap`: its two data members (lines 49-51). -/
structure binary_heap (α : Type) where
  container : List α
  compare : α → α → Bool

/-- Checked element access `container[index]`. -/
def at_index {α : Type} (container : List α) (index : Nat) : Except Fault α :=
  match container[index]? with
  | some a => .ok a
  | none => .error .out_of_range

/-- The call `swap(container[i], container[j])` of `std::swap` on two elements. -/
def swap_at {α : Type} (container : List α) (i j : Nat) : Except Fault (List α) :=
  match container[i]?, container[j]? with
  | some a, some b => .ok ((container.set i b).set j a)
  | _, _ => .error .out_of_range

/-- Line 155: `get_parent_index`. -/
def get_parent_index (index : Nat) : Nat :=
  if index = 0 then 0 else (index - 1) / 2

/-- Line 160: `get_left_index`. -/
def get_left_index (index : Nat) : Nat :=
  (index * 2) + 1

/-- Line 165: `get_right_index`. -/
def get_right_index (index : Nat) : Nat :=
  (index * 2) + 2

/-- The implicitly declared default constructor: an empty container, and the
comparison object of the instantiation. -/
def binary_heap.create {α : Type} (compare : α → α → Bool) : binary_heap α :=
  { container := [], compare := compare }

/-- Line 54: `empty()`. -/
def binary_heap.empty {α : Type} (self : binary_heap α) : Bool :=
  self.container.isEmpty

/-- Line 59: `size()`. -/
def binary_heap.size {α : Type} (self : binary_heap α) : Nat :=
  self.container.length

/-- Lines 64-72: `top()`, that is `container.front()`. -/
def binary_heap.top {α : Type} (self : binary_heap α) : Except Fault α :=
  at_index self.container 0

/-- Lines 109-124: the `while` loop of `enforce_heap_property_up`.  The parent index
is recomputed from the current index at each evaluation of the condition, as the
source does before the loop and at the end of its body. -/
def enforce_heap_property_up_loop {α : Type} (compare : α → α → Bool) :
    Nat → List α → Nat → Except Fault (List α)
  | 0, _, _ => .error .out_of_fuel
  | fuel + 1, container, current_index => do
    let parent_index := get_parent_index current_index
    let current ← at_index container current_index
    let parent ← at_index container parent_index
    if compare current parent then
      let container ← swap_at container current_index parent_index
      enforce_heap_property_up_loop compare fuel container parent_index
    else
      pure container

/-- Lines 109-124: `enforce_heap_property_up`. -/
def enforce_heap_property_up {α : Type} (compare : α → α → Bool) (fuel : Nat)
    (container : List α) (index : Nat) : Except Fault (List α) :=
  enforce_heap_property_up_loop compare fuel container index

/-- Lines 133-151: the `for` loop of `enforce_heap_property_down`.  At every entry of
the body `new_superlative_index` equals `superlative_index` (by the initialiser, and
afterwards by the increment `superlative_index = new_superlative_index`). -/
def enforce_heap_property_down_loop {α : Type} (compare : α → α → Bool) :
    Nat → List α → Nat → Except Fault (List α)
  | 0, _, _ => .error .out_of_fuel
  | fuel + 1, container, superlative_index => do
    let new_superlative_index := superlative_index
    let left_index := get_left_index superlative_index
    let new_superlative_index ←
      if left_index < container.length then do
        let left ← at_index container left_index
        let best ← at_index container new_superlative_index
        pure (if compare left best then left_index else new_superlative_index)
      else
        pure new_superlative_index
    let right_index := get_right_index superlative_index
    let new_superlative_index ←
      if right_index < container.length then do
        let right ← at_index container right_index
        let best ← at_index container new_superlative_index
        pure (if compare right best then right_index else new_superlative_index)
      else
        pure new_superlative_index
    if new_superlative_index = superlative_index then
      pure container
    else do
      let container ← swap_at container superlative_index new_superlative_index
      enforce_heap_property_down_loop compare fuel container new_superlative_index

/-- Lines 126-152: `enforce_heap_property_down`. -/
def enforce_heap_property_down {α : Type} (compare : α → α → Bool) (fuel : Nat)
    (container : List α) (index : Nat) : Except Fault (List α) :=
  enforce_heap_property_down_loop compare fuel container index

/-- Lines 74-78: `push`. -/
def binary_heap.push {α : Type} (fuel : Nat) (self : binary_heap α) (value : α) :
    Except Fault (binary_heap α) := do
  let container := self.container ++ [value]
  let container ← enforce_heap_property_up self.compare fuel container (container.length - 1)
  pure { self with container := container }

/-- Lines 84-89: `emplace`, that is `container.emplace_back(args...)` and nothing
else; the constructor arguments are represented by the constructed value. -/
def binary_heap.emplace {α : Type} (self : binary_heap α) (value : α) : binary_heap α :=
  { self with container := self.container ++ [value] }

/-- Lines 91-98: `pop`. -/
def binary_heap.pop {α : Type} (fuel : Nat) (self : binary_heap α) :
    Except Fault (binary_heap α) := do
  let back ← at_index self.container (self.container.length - 1)
  let _ ← at_index self.container 0
  let container := self.container.set 0 back
  let container := container.dropLast
  let container ← enforce_heap_property_down self.compare fuel container 0
  pure { self with container := container }

/-- Lines 100-106: `swap`; the pair is the state of `*this` and of `other`. -/
def binary_heap.swap {α : Type} (self other : binary_heap α) :
    binary_heap α × binary_heap α :=
  ({ container := other.container, compare := other.compare },
   { container := self.container, compare := self.compare })

/-- The comparison object of `binary_min_heap<int>`: `std::less<int>`. -/
def std_less (a b : Int) : Bool := decide (a < b)

/-- The comparison object of `binary_max_heap<int>`: `std::greater<int>`. -/
def std_greater (a b : Int) : Bool := decide (a > b)

/-- Line 33: a default-constructed `binary_min_heap<int>`. -/
def binary_min_heap : binary_heap Int := binary_heap.create std_less

/-- Line 36: a default-constructed `binary_max_heap<int>`. -/
def binary_max_heap : binary_heap Int := binary_heap.create std_greater

/-! ## Client programs

The claims speak of sequences of calls made by a client of the class.  These are the
client loops they describe. -/

/-- A mutating call on a heap. -/
inductive Call (α : Type) where
  | push (value : α)
  | pop

/-- A client that makes the given calls in order. -/
def run {α : Type} (fuel : Nat) : List (Call α) → binary_heap α → Except Fault (binary_heap α)
  | [], h => .ok h
  | .push v :: cs, h => do
    let h ← h.push fuel v
    run fuel cs h
  | .pop :: cs, h => do
    let h ← h.pop fuel
    run fuel cs h

/-- Whether, while the calls are made in order, no `pop` is applied to an empty heap. -/
def never_pops_empty {α : Type} (fuel : Nat) : List (Call α) → binary_heap α → Bool
  | [], _ => true
  | .push v :: cs, h =>
    match h.push fuel v with
    | .ok h2 => never_pops_empty fuel cs h2
    | .error _ => true
  | .pop :: cs, h =>
    !h.empty &&
      match h.pop fuel with
      | .ok h2 => never_pops_empty fuel cs h2
      | .error _ => true

/-- The number of `push` calls. -/
def count_push {α : Type} : List (Call α) → Nat
  | [] => 0
  | .push _ :: cs => count_push cs + 1
  | .pop :: cs => count_push cs

/-- The number of `pop` calls. -/
def count_pop {α : Type} : List (Call α) → Nat
  | [] => 0
  | .push _ :: cs => count_pop cs
  | .pop :: cs => count_pop cs + 1

/-- A client that pushes every element of `values`, in order. -/
def push_all {α : Type} (fuel : Nat) (values : List α) (h : binary_heap α) :
    Except Fault (binary_heap α) :=
  run fuel (values.map Call.push) h

/-- A client that performs `rounds` rounds of `top()` followed by `pop()`; the result is
the list of the values `top()` returned, in order, and the final heap. -/
def extract_all {α : Type} (fuel : Nat) :
    Nat → binary_heap α → Except Fault (List α × binary_heap α)
  | 0, h => .ok ([], h)
  | rounds + 1, h => do
    let a ← h.top
    let h ← h.pop fuel
    let (out, h) ← extract_all fuel rounds h
    pure (a :: out, h)

/-- A client that pushes every element of `values` onto `h`, then extracts as many. -/
def push_then_extract {α : Type} (fuel : Nat) (values : List α) (h : binary_heap α) :
    Except Fault (List α × binary_heap α) := do
  let h ← push_all fuel values h
  extract_all fuel values.length h

/-- The calls of the min-heap scenario up to its first `top()`: push 5, 3, 8, 1, 4. -/
def scenario_pushes : List (Call Int) :=
  [.push 5, .push 3, .push 8, .push 1, .push 4]

/-- The calls of the min-heap scenario up to its second `top()`: one `pop()` more. -/
def scenario_pop : List (Call Int) :=
  scenario_pushes ++ [.pop]

/-- The calls of the min-heap scenario up to its third `top()`: `push(0)` more. -/
def scenario_push_zero : List (Call Int) :=
  scenario_pop ++ [.push 0]

/-- The heap property of the backing sequence: at no index `i > 0` does the element
outrank the element at `get_parent_index i`. -/
def heap_property {α : Type} (less : α → α → Bool) (seq : List α) : Prop :=
  ∀ i, i < seq.length → 0 < i →
    ∀ a ∈ seq[i]?, ∀ b ∈ seq[get_parent_index i]?, less a b = false

instance {α : Type} (less : α → α → Bool) (seq : List α) :
    Decidable (heap_property less seq) := by
  unfold heap_property; infer_instance

/-- The predicate contract: `less` is irreflexive. -/
def irreflexive {α : Type} (less : α → α → Bool) : Prop :=
  ∀ a, less a a = false

/-- The predicate contract: `less` is transitive. -/
def transitive {α : Type} (less : α → α → Bool) : Prop :=
  ∀ a b c, less a b = true → less b c = true → less a c = true

/-- Incomparability under `less` is transitive: together with irreflexivity and
transitivity this makes `less` a strict weak ordering (a strict total preorder). -/
def incomparability_transitive {α : Type} (less : α → α → Bool) : Prop :=
  ∀ a b c, less a b = false → less b c = false → less a c = false

/-- The state of the sift-up loop at index `k`: the heap property holds at every index
other than `k`, and no child of `k` outranks the parent of `k`. -/
def up_invariant {α : Type} (less : α → α → Bool) (xs : List α) (k : Nat) : Prop :=
  k < xs.length ∧
  (∀ i a b, 0 < i → i ≠ k → xs[i]? = some a → xs[get_parent_index i]? = some b →
    less a b = false) ∧
  (∀ i a g, 0 < k → 0 < i → get_parent_index i = k → xs[i]? = some a →
    xs[get_parent_index (get_parent_index i)]? = some g → less a g = false)

/-- Whether the element at index `i` outranks the element at index `j`, both live. -/
def outranks {α : Type} (less : α → α → Bool) (xs : List α) (i j : Nat) : Bool :=
  match xs[i]?, xs[j]? with
  | some a, some b => less a b
  | _, _ => false

/-- The value of `new_superlative_index` when one pass of the sift-down body reaches
the test `new_superlative_index == superlative_index`. -/
def down_select {α : Type} (less : α → α → Bool) (xs : List α) (k : Nat) : Nat :=
  let n1 := if outranks less xs (get_left_index k) k then get_left_index k else k
  if outranks less xs (get_right_index k) n1 then get_right_index k else n1

/-- The state of the sift-down loop at index `k`: the heap property holds at every
index whose parent is not `k`, and no child of `k` outranks the parent of `k`. -/
def down_invariant {α : Type} (less : α → α → Bool) (xs : List α) (k : Nat) : Prop :=
  (∀ i a b, 0 < i → get_parent_index i ≠ k → xs[i]? = some a →
    xs[get_parent_index i]? = some b → less a b = false) ∧
  (∀ i a g, 0 < k → 0 < i → get_parent_index i = k → xs[i]? = some a →
    xs[get_parent_index (get_parent_index i)]? = some g → less a g = false)

/-- The product order on pairs of naturals: irreflexive and transitive, but two
incomparable pairs need not rank alike against a third. -/
def pair_less (a b : Nat × Nat) : Bool :=
  decide (a.1 < b.1) && decide (a.2 < b.2)

/-- The sequence that `pop` hands to the sift-down: the root is overwritten by the last
element, and the last slot is removed. -/
def pop_front_back {α : Type} (xs : List α) (back : α) : List α :=
  (xs.set 0 back).dropLast

/-- The index that `m` is sent to when positions `i` and `j` are exchanged. -/
def exchanged (i j m : Nat) : Nat :=
  if m = i then j else if m = j then i else m

/-- The value a `size_type` of `w` bits holds after an arithmetic result `n`. -/
def size_type_wrap (w n : Nat) : Nat :=
  n % 2 ^ w

/-- Line 160: `get_left_index` in the arithmetic of a `size_type` of `w` bits, where
the product and the sum each wrap. -/
def get_left_index_wrapping (w index : Nat) : Nat :=
  size_type_wrap w (size_type_wrap w (index * 2) + 1)

/-- Line 165: `get_right_index` in the arithmetic of a `size_type` of `w` bits. -/
def get_right_index_wrapping (w index : Nat) : Nat :=
  size_type_wrap w (size_type_wrap w (index * 2) + 2)

/-- Whether `j` is met within `steps` applications of `get_parent_index` to `n`
(`n` itself included). -/
def ancestor_within : Nat → Nat → Nat → Bool
  | 0, j, n => decide (j = n)
  | steps + 1, j, n => decide (j = n) || ancestor_within steps j (get_parent_index n)

/-- Whether `j` is reachable from `n` by repeated `get_parent_index`: `n` steps are
enough, since a parent index is smaller than its child until the root is reached. -/
def is_ancestor (j n : Nat) : Bool :=
  ancestor_within n j n

/-! ## Elementary facts -/

theorem at_index_of_get {α : Type} {xs : List α} {i : Nat} {a : α} (h : xs[i]? = some a) :
    at_index xs i = .ok a := by
  simp [at_index, h]

theorem set_set_perm {α : Type} (xs : List α) (i j : Nat) (hi : i < xs.length)
    (hj : j < xs.length) : ((xs.set i xs[j]).set j xs[i]).Perm xs := by
  classical
  rw [List.perm_iff_count]
  intro x
  have hj2 : j < (xs.set i xs[j]).length := by simpa using hj
  have hc1 := List.count_set xs[j] x xs i hi
  have hc2 := List.count_set xs[i] x (xs.set i xs[j]) j hj2
  have hg : (xs.set i xs[j])[j] = xs[j] := by
    rw [List.getElem_set]; split <;> rfl
  have hb1 : (if xs[i] == x then 1 else 0) ≤ xs.count x := by
    split
    · rename_i h
      have h1 : xs[i] = x := by simpa using h
      have h2 : x ∈ xs := h1 ▸ List.getElem_mem hi
      exact List.count_pos_iff.mpr h2
    · exact Nat.zero_le _
  rw [hg] at hc2
  rw [hc2, hc1]
  omega

theorem swap_at_spec {α : Type} (xs : List α) (i j : Nat) (hi : i < xs.length)
    (hj : j < xs.length) :
    ∃ ys, swap_at xs i j = .ok ys ∧ ys.length = xs.length ∧
      (∀ m, ys[m]? = xs[exchanged i j m]?) ∧ ys.Perm xs := by
  have h1 : xs[i]? = some xs[i] := List.getElem?_eq_getElem hi
  have h2 : xs[j]? = some xs[j] := List.getElem?_eq_getElem hj
  refine ⟨(xs.set i xs[j]).set j xs[i], ?_, by simp, ?_, set_set_perm xs i j hi hj⟩
  · simp [swap_at, h1, h2]
  · intro m
    unfold exchanged
    by_cases hmj : m = j
    · subst hmj
      by_cases hmi : m = i
      · subst hmi; simp [hi]
      · simp [hmi, hj, h1]
    · by_cases hmi : m = i
      · subst hmi
        simp [List.getElem?_set, hmj, Ne.symm hmj, hi, h2]
      · simp [List.getElem?_set, hmj, hmi, Ne.symm hmj, Ne.symm hmi]

theorem parent_lt {i : Nat} (h : 0 < i) : get_parent_index i < i := by
  unfold get_parent_index
  rw [if_neg (by omega)]
  omega

theorem parent_eq_iff {i p : Nat} (h : 0 < i) :
    get_parent_index i = p ↔ (i = get_left_index p ∨ i = get_right_index p) := by
  unfold get_parent_index get_left_index get_right_index
  rw [if_neg (by omega)]
  omega

theorem parent_zero : get_parent_index 0 = 0 := rfl

/-- One evaluation of the condition of the sift-up loop, and of its body. -/
theorem up_loop_step {α : Type} (less : α → α → Bool) (fuel : Nat) (xs : List α)
    (k : Nat) (hk : k < xs.length) :
    ∃ a b, xs[k]? = some a ∧ xs[get_parent_index k]? = some b ∧
      ((less a b = false ∧ enforce_heap_property_up_loop less (fuel + 1) xs k = .ok xs) ∨
       (less a b = true ∧ ∃ ys, swap_at xs k (get_parent_index k) = .ok ys ∧
          ys.length = xs.length ∧ (∀ m, ys[m]? = xs[exchanged k (get_parent_index k) m]?) ∧
          ys.Perm xs ∧
          enforce_heap_property_up_loop less (fuel + 1) xs k =
            enforce_heap_property_up_loop less fuel ys (get_parent_index k))) := by
  have hp : get_parent_index k < xs.length := by
    rcases Nat.eq_zero_or_pos k with h | h
    · subst h; simpa [parent_zero] using hk
    · exact lt_trans (parent_lt h) hk
  have h1 : xs[k]? = some xs[k] := List.getElem?_eq_getElem hk
  have h2 : xs[get_parent_index k]? = some xs[get_parent_index k] :=
    List.getElem?_eq_getElem hp
  refine ⟨_, _, h1, h2, ?_⟩
  cases hc : less xs[k] xs[get_parent_index k]
  · left
    refine ⟨rfl, ?_⟩
    simp [enforce_heap_property_up_loop, at_index, h1, h2, hc, bind, Except.bind, pure,
      Except.pure]
  · right
    obtain ⟨ys, hs, hl, hg, hperm⟩ := swap_at_spec xs k (get_parent_index k) hk hp
    refine ⟨rfl, ys, hs, hl, hg, hperm, ?_⟩
    simp [enforce_heap_property_up_loop, at_index, h1, h2, hc, bind, Except.bind, hs]

theorem asymmetric_of {α : Type} {less : α → α → Bool} (hirr : irreflexive less)
    (htr : transitive less) {a b : α} (h : less a b = true) : less b a = false := by
  cases hba : less b a
  · rfl
  · have := htr a b a h hba
    rw [hirr a] at this
    exact absurd this (by simp)

/-- With enough fuel the sift-up loop of an irreflexive predicate returns, and its
result is a rearrangement of the sequence it was given. -/
theorem up_loop_ok {α : Type} (less : α → α → Bool) (hirr : irreflexive less) :
    ∀ (fuel : Nat) (xs : List α) (k : Nat), k < xs.length → k < fuel →
      ∃ ys, enforce_heap_property_up_loop less fuel xs k = .ok ys ∧
        ys.length = xs.length ∧ ys.Perm xs := by
  intro fuel
  induction fuel with
  | zero => intro xs k _ h; omega
  | succ fuel ih =>
    intro xs k hk hf
    obtain ⟨a, b, ha, hb, h | ⟨hc, ys, -, hl, -, hperm, hrec⟩⟩ := up_loop_step less fuel xs k hk
    · exact ⟨xs, h.2, rfl, List.Perm.refl _⟩
    · have hk0 : 0 < k := by
        rcases Nat.eq_zero_or_pos k with h | h
        · subst h
          rw [parent_zero] at hb
          rw [ha] at hb
          cases hb
          rw [hirr a] at hc
          exact absurd hc (by simp)
        · exact h
      have hp := parent_lt hk0
      obtain ⟨zs, hz, hzl, hzp⟩ := ih ys (get_parent_index k) (by omega) (by omega)
      exact ⟨zs, by rw [hrec, hz], by omega, hzp.trans hperm⟩

/-- When the sift-up loop returns from a state satisfying its invariant, the heap
property holds in the result. -/
theorem up_loop_heap {α : Type} (less : α → α → Bool) (hirr : irreflexive less)
    (htr : transitive less) (hnt : incomparability_transitive less) :
    ∀ (fuel : Nat) (xs : List α) (k : Nat) (ys : List α), up_invariant less xs k →
      enforce_heap_property_up_loop less fuel xs k = .ok ys → heap_property less ys := by
  intro fuel
  induction fuel with
  | zero => intro xs k ys _ h; simp [enforce_heap_property_up_loop] at h
  | succ fuel ih =>
    intro xs k zs hinv hrun
    obtain ⟨hk, h1, h2⟩ := hinv
    obtain ⟨a, b, ha, hb, h | ⟨hc, ys, -, hl, hg, -, hrec⟩⟩ := up_loop_step less fuel xs k hk
    · rw [h.2] at hrun
      cases hrun
      intro i hi hi0 x hx y hy
      by_cases hik : i = k
      · subst hik
        rw [Option.mem_def] at hx hy
        rw [ha] at hx; rw [hb] at hy
        cases hx; cases hy
        exact h.1
      · exact h1 i x y hi0 hik hx hy
    · have hk0 : 0 < k := by
        rcases Nat.eq_zero_or_pos k with h | h
        · subst h
          rw [parent_zero] at hb
          rw [ha] at hb
          cases hb
          rw [hirr a] at hc
          exact absurd hc (by simp)
        · exact h
      have hp := parent_lt hk0
      rw [hrec] at hrun
      refine ih ys (get_parent_index k) zs ⟨by omega, ?_, ?_⟩ hrun
      · intro i x y hi0 hip hx hy
        rw [hg] at hx hy
        by_cases hik : i = k
        · subst hik
          have e1 : exchanged i (get_parent_index i) i = get_parent_index i := by
            simp [exchanged]
          have e2 : exchanged i (get_parent_index i) (get_parent_index i) = i := by
            simp [exchanged]
          rw [e1, hb] at hx
          rw [e2, ha] at hy
          cases hx; cases hy
          exact asymmetric_of hirr htr hc
        · have e1 : exchanged k (get_parent_index k) i = i := by
            simp [exchanged, hik, hip]
          rw [e1] at hx
          by_cases hpi : get_parent_index i = get_parent_index k
          · have e2 : exchanged k (get_parent_index k) (get_parent_index i) = k := by
              unfold exchanged
              rw [if_neg (by omega), if_pos hpi]
            rw [e2, ha] at hy
            cases hy
            have hxb : less x b = false := h1 i x b hi0 hik hx (hpi ▸ hb)
            cases hxa : less x a
            · rfl
            · rw [htr x a b hxa hc] at hxb
              exact absurd hxb (by simp)
          · by_cases hpk : get_parent_index i = k
            · have e2 : exchanged k (get_parent_index k) (get_parent_index i) =
                  get_parent_index k := by
                simp [exchanged, hpk]
              rw [e2, hb] at hy
              cases hy
              exact h2 i x b hk0 hi0 hpk hx (by rw [hpk]; exact hb)
            · have e2 : exchanged k (get_parent_index k) (get_parent_index i) =
                  get_parent_index i := by
                simp [exchanged, hpk, hpi]
              rw [e2] at hy
              exact h1 i x y hi0 hik hx hy
      · intro i x g hp0 hi0 hip hx hy
        rw [hg] at hx hy
        have hgp := parent_lt hp0
        have e2 : exchanged k (get_parent_index k) (get_parent_index (get_parent_index i)) =
            get_parent_index (get_parent_index i) := by
          rw [hip]; unfold exchanged
          rw [if_neg (by omega), if_neg (by omega)]
        rw [e2, hip] at hy
        have hbg : less b g = false :=
          h1 (get_parent_index k) b g hp0 (by omega) hb hy
        by_cases hik : i = k
        · subst hik
          have e1 : exchanged i (get_parent_index i) i = get_parent_index i := by
            simp [exchanged]
          rw [e1, hb] at hx
          cases hx
          exact hbg
        · have hipk : i ≠ get_parent_index k := by
            have := parent_lt hi0
            omega
          have e1 : exchanged k (get_parent_index k) i = i := by
            simp [exchanged, hik, hipk]
          rw [e1] at hx
          have hxb : less x b = false := h1 i x b hi0 hik hx (hip ▸ hb)
          exact hnt x b g hxb hbg

theorem outranks_eq {α : Type} {less : α → α → Bool} {xs : List α} {i j : Nat} {a b : α}
    (hi : xs[i]? = some a) (hj : xs[j]? = some b) : outranks less xs i j = less a b := by
  simp [outranks, hi, hj]

theorem outranks_none {α : Type} {less : α → α → Bool} {xs : List α} {i j : Nat}
    (hi : xs.length ≤ i) : outranks less xs i j = false := by
  have : xs[i]? = none := List.getElem?_eq_none hi
  simp [outranks, this]

theorem outranks_true {α : Type} {less : α → α → Bool} {xs : List α} {i j : Nat}
    (h : outranks less xs i j = true) :
    ∃ a b, xs[i]? = some a ∧ xs[j]? = some b ∧ less a b = true := by
  unfold outranks at h
  split at h
  · rename_i a b ha hb
    exact ⟨a, b, ha, hb, h⟩
  · exact absurd h (by simp)

theorem get_lt_length {α : Type} {xs : List α} {i : Nat} {a : α} (h : xs[i]? = some a) :
    i < xs.length := by
  by_contra hn
  rw [List.getElem?_eq_none (by omega)] at h
  exact absurd h (by simp)

theorem down_select_range {α : Type} (less : α → α → Bool) (xs : List α) (k : Nat) :
    down_select less xs k = k ∨
      (k < down_select less xs k ∧ down_select less xs k < xs.length) := by
  unfold down_select
  simp only
  by_cases h2 : outranks less xs (get_right_index k)
      (if outranks less xs (get_left_index k) k then get_left_index k else k) = true
  · rw [if_pos h2]
    obtain ⟨a, b, ha, -, -⟩ := outranks_true h2
    right
    exact ⟨by unfold get_right_index; omega, get_lt_length ha⟩
  · rw [if_neg h2]
    by_cases h1 : outranks less xs (get_left_index k) k = true
    · rw [if_pos h1]
      obtain ⟨a, b, ha, -, -⟩ := outranks_true h1
      right
      exact ⟨by unfold get_left_index; omega, get_lt_length ha⟩
    · rw [if_neg h1]
      left; rfl

/-- What the sift-down body selects: the selected index is `k` or one of its two
children; a selected child outranks the element at `k`; and a child that is not
selected does not outrank the selected element. -/
theorem down_select_spec {α : Type} (less : α → α → Bool) (hirr : irreflexive less)
    (htr : transitive less) (xs : List α) (k : Nat) :
    (down_select less xs k = k ∨ down_select less xs k = get_left_index k ∨
      down_select less xs k = get_right_index k) ∧
    (down_select less xs k ≠ k → ∃ y x, xs[down_select less xs k]? = some y ∧
      xs[k]? = some x ∧ less y x = true) ∧
    (∀ i c y, (i = get_left_index k ∨ i = get_right_index k) → i ≠ down_select less xs k →
      xs[i]? = some c → xs[down_select less xs k]? = some y → less c y = false) := by
  have hkl : k ≠ get_left_index k := by unfold get_left_index; omega
  have hkr : k ≠ get_right_index k := by unfold get_right_index; omega
  have hlr : get_left_index k ≠ get_right_index k := by
    unfold get_left_index get_right_index; omega
  unfold down_select
  simp only
  by_cases h1 : outranks less xs (get_left_index k) k = true
  · rw [if_pos h1]
    obtain ⟨l, x, hl, hx, hlx⟩ := outranks_true h1
    by_cases h2 : outranks less xs (get_right_index k) (get_left_index k) = true
    · rw [if_pos h2]
      obtain ⟨r, l2, hr, hl2, hrl⟩ := outranks_true h2
      rw [hl] at hl2; cases hl2
      refine ⟨Or.inr (Or.inr rfl), fun _ => ⟨r, x, hr, hx, htr r l x hrl hlx⟩, ?_⟩
      intro i c y hi hne hc hy
      rcases hi with hi | hi
      · subst hi
        rw [hl] at hc; rw [hr] at hy
        cases hc; cases hy
        exact asymmetric_of hirr htr hrl
      · exact absurd hi hne
    · rw [if_neg h2]
      refine ⟨Or.inr (Or.inl rfl), fun _ => ⟨l, x, hl, hx, hlx⟩, ?_⟩
      intro i c y hi hne hc hy
      rcases hi with hi | hi
      · exact absurd hi hne
      · subst hi
        rw [hl] at hy; cases hy
        rw [outranks_eq hc hl] at h2
        simpa using h2
  · rw [if_neg h1]
    by_cases h2 : outranks less xs (get_right_index k) k = true
    · rw [if_pos h2]
      obtain ⟨r, x, hr, hx, hrx⟩ := outranks_true h2
      refine ⟨Or.inr (Or.inr rfl), fun _ => ⟨r, x, hr, hx, hrx⟩, ?_⟩
      intro i c y hi hne hc hy
      rcases hi with hi | hi
      · subst hi
        rw [hr] at hy; cases hy
        rw [outranks_eq hc hx] at h1
        have hcx : less c x = false := by simpa using h1
        cases hcr : less c r
        · rfl
        · rw [htr c r x hcr hrx] at hcx
          exact absurd hcx (by simp)
      · exact absurd hi hne
    · rw [if_neg h2]
      refine ⟨Or.inl rfl, fun h => absurd rfl h, ?_⟩
      intro i c y hi hne hc hy
      rcases hi with hi | hi
      · subst hi
        rw [outranks_eq hc hy] at h1
        simpa using h1
      · subst hi
        rw [outranks_eq hc hy] at h2
        simpa using h2

/-- One pass of the body of the sift-down loop. -/
theorem down_loop_step {α : Type} (less : α → α → Bool) (fuel : Nat) (xs : List α)
    (k : Nat) :
    (down_select less xs k = k ∧
      enforce_heap_property_down_loop less (fuel + 1) xs k = .ok xs) ∨
    (k < down_select less xs k ∧ down_select less xs k < xs.length ∧
      ∃ ys, swap_at xs k (down_select less xs k) = .ok ys ∧ ys.length = xs.length ∧
        (∀ m, ys[m]? = xs[exchanged k (down_select less xs k) m]?) ∧ ys.Perm xs ∧
        enforce_heap_property_down_loop less (fuel + 1) xs k =
          enforce_heap_property_down_loop less fuel ys (down_select less xs k)) := by
  have key : enforce_heap_property_down_loop less (fuel + 1) xs k =
      if down_select less xs k = k then .ok xs
      else (swap_at xs k (down_select less xs k)).bind
        (fun ys => enforce_heap_property_down_loop less fuel ys (down_select less xs k)) := by
    have hlr : get_left_index k < get_right_index k := by
      unfold get_left_index get_right_index; omega
    have hkl : k < get_left_index k := by unfold get_left_index; omega
    by_cases hl : get_left_index k < xs.length
    · have h1 : xs[get_left_index k]? = some xs[get_left_index k] :=
        List.getElem?_eq_getElem hl
      have h0 : xs[k]? = some xs[k] := List.getElem?_eq_getElem (by omega)
      by_cases hr : get_right_index k < xs.length
      · have h2 : xs[get_right_index k]? = some xs[get_right_index k] :=
          List.getElem?_eq_getElem hr
        cases hc1 : less xs[get_left_index k] xs[k] <;>
          cases hc2 : less xs[get_right_index k] xs[k] <;>
          cases hc3 : less xs[get_right_index k] xs[get_left_index k] <;>
          simp [enforce_heap_property_down_loop, down_select, outranks, at_index, h0, h1, h2,
            hl, hr, hc1, hc2, hc3, bind, Except.bind, pure, Except.pure]
      · have h2 : xs[get_right_index k]? = none := List.getElem?_eq_none (by omega)
        cases hc1 : less xs[get_left_index k] xs[k] <;>
          simp [enforce_heap_property_down_loop, down_select, outranks, at_index, h0, h1, h2,
            hl, hr, hc1, bind, Except.bind, pure, Except.pure]
    · have h1 : xs[get_left_index k]? = none := List.getElem?_eq_none (by omega)
      have h2 : xs[get_right_index k]? = none := List.getElem?_eq_none (by omega)
      have hr : ¬ get_right_index k < xs.length := by omega
      simp [enforce_heap_property_down_loop, down_select, outranks, h1, h2,
        hl, hr, pure, Except.pure, bind, Except.bind]
  rcases down_select_range less xs k with h | ⟨h1, h2⟩
  · left
    exact ⟨h, by rw [key, if_pos h]⟩
  · right
    obtain ⟨ys, hs, hlen, hg, hperm⟩ :=
      swap_at_spec xs k (down_select less xs k) (by omega) h2
    refine ⟨h1, h2, ys, hs, hlen, hg, hperm, ?_⟩
    rw [key, if_neg (by omega), hs]
    rfl

/-- With enough fuel the sift-down loop returns, whatever the predicate, and its result
is a rearrangement of the sequence it was given. -/
theorem down_loop_ok {α : Type} (less : α → α → Bool) :
    ∀ (fuel : Nat) (xs : List α) (k : Nat), 0 < fuel → xs.length < fuel + k →
      ∃ ys, enforce_heap_property_down_loop less fuel xs k = .ok ys ∧
        ys.length = xs.length ∧ ys.Perm xs := by
  intro fuel
  induction fuel with
  | zero => intro xs k h _; omega
  | succ fuel ih =>
    intro xs k _ hf
    rcases down_loop_step less fuel xs k with ⟨-, h⟩ | ⟨h1, h2, ys, -, hl, -, hperm, hrec⟩
    · exact ⟨xs, h, rfl, List.Perm.refl _⟩
    · obtain ⟨zs, hz, hzl, hzp⟩ :=
        ih ys (down_select less xs k) (by omega) (by omega)
      exact ⟨zs, by rw [hrec, hz], by omega, hzp.trans hperm⟩

/-- When the sift-down loop returns from a state satisfying its invariant, the heap
property holds in the result. -/
theorem down_loop_heap {α : Type} (less : α → α → Bool) (hirr : irreflexive less)
    (htr : transitive less) :
    ∀ (fuel : Nat) (xs : List α) (k : Nat) (ys : List α), down_invariant less xs k →
      enforce_heap_property_down_loop less fuel xs k = .ok ys → heap_property less ys := by
  intro fuel
  induction fuel with
  | zero => intro xs k ys _ h; simp [enforce_heap_property_down_loop] at h
  | succ fuel ih =>
    intro xs k zs hinv hrun
    obtain ⟨h1, h2⟩ := hinv
    obtain ⟨s1, s2, s3⟩ := down_select_spec less hirr htr xs k
    rcases down_loop_step less fuel xs k with ⟨hn, h⟩ | ⟨hkn, hnl, ys, -, hl, hg, -, hrec⟩
    · rw [h] at hrun
      cases hrun
      intro i hi hi0 a ha b hb
      rw [Option.mem_def] at ha hb
      by_cases hp : get_parent_index i = k
      · have hch := (parent_eq_iff hi0).mp hp
        rw [hp] at hb
        exact s3 i a b hch (by have := parent_lt hi0; omega) ha (by rw [hn]; exact hb)
      · exact h1 i a b hi0 hp ha hb
    · rw [hrec] at hrun
      have hnk : down_select less xs k ≠ k := by omega
      obtain ⟨y, x, hy, hx, hyx⟩ := s2 hnk
      have hn0 : 0 < down_select less xs k := by omega
      have hpn : get_parent_index (down_select less xs k) = k := by
        rw [parent_eq_iff hn0]
        rcases s1 with h | h | h
        · exact absurd h hnk
        · exact Or.inl h
        · exact Or.inr h
      have ek : exchanged k (down_select less xs k) k = down_select less xs k := by
        simp [exchanged]
      have en : exchanged k (down_select less xs k) (down_select less xs k) = k := by
        unfold exchanged
        rw [if_neg hnk, if_pos rfl]
      refine ih ys (down_select less xs k) zs ⟨?_, ?_⟩ hrun
      · intro i a b hi0 hip ha hb
        rw [hg] at ha hb
        by_cases hin : i = down_select less xs k
        · subst hin
          rw [en, hx] at ha
          rw [hpn, ek, hy] at hb
          cases ha; cases hb
          exact asymmetric_of hirr htr hyx
        · by_cases hik : i = k
          · subst hik
            have hpi := parent_lt hi0
            have e2 : exchanged i (down_select less xs i) (get_parent_index i) =
                get_parent_index i := by
              unfold exchanged
              rw [if_neg (by omega), if_neg (by omega)]
            rw [ek, hy] at ha
            rw [e2] at hb
            cases ha
            exact h2 (down_select less xs i) y b hi0 hn0 hpn hy (by rw [hpn]; exact hb)
          · have e1 : exchanged k (down_select less xs k) i = i := by
              simp [exchanged, hik, hin]
            rw [e1] at ha
            by_cases hpk : get_parent_index i = k
            · rw [hpk, ek, hy] at hb
              cases hb
              exact s3 i a y ((parent_eq_iff hi0).mp hpk) hin ha hy
            · have e2 : exchanged k (down_select less xs k) (get_parent_index i) =
                  get_parent_index i := by
                simp [exchanged, hpk, hip]
              rw [e2] at hb
              exact h1 i a b hi0 hpk ha hb
      · intro i a g _ hi0 hip ha hgg
        rw [hg] at ha hgg
        rw [hip, hpn, ek, hy] at hgg
        cases hgg
        have hpi := parent_lt hi0
        have e1 : exchanged k (down_select less xs k) i = i := by
          unfold exchanged
          rw [if_neg (by omega), if_neg (by omega)]
        rw [e1] at ha
        exact h1 i a y hi0 (by omega) ha (by rw [hip]; exact hy)

/-! ## More fuel does not change a result -/

theorem up_loop_out_of_range {α : Type} (less : α → α → Bool) (fuel : Nat) (xs : List α)
    (k : Nat) (hk : xs.length ≤ k) (ys : List α) :
    enforce_heap_property_up_loop less fuel xs k ≠ .ok ys := by
  have h1 : xs[k]? = none := List.getElem?_eq_none hk
  cases fuel with
  | zero => simp [enforce_heap_property_up_loop]
  | succ fuel => simp [enforce_heap_property_up_loop, at_index, h1, bind, Except.bind]

theorem up_loop_succ_fuel {α : Type} (less : α → α → Bool) :
    ∀ (fuel : Nat) (xs : List α) (k : Nat) (ys : List α),
      enforce_heap_property_up_loop less fuel xs k = .ok ys →
      enforce_heap_property_up_loop less (fuel + 1) xs k = .ok ys := by
  intro fuel
  induction fuel with
  | zero => intro xs k ys h; simp [enforce_heap_property_up_loop] at h
  | succ fuel ih =>
    intro xs k zs hrun
    by_cases hk : k < xs.length
    · obtain ⟨a, b, ha, hb, h | ⟨hc, ys, hs, -, -, -, hrec⟩⟩ := up_loop_step less fuel xs k hk
      · obtain ⟨a2, b2, ha2, hb2, h2 | ⟨hc2, -⟩⟩ := up_loop_step less (fuel + 1) xs k hk
        · rw [h.2] at hrun
          rw [h2.2, hrun]
        · rw [ha] at ha2; rw [hb] at hb2
          cases ha2; cases hb2
          rw [h.1] at hc2
          exact absurd hc2 (by simp)
      · obtain ⟨a2, b2, ha2, hb2, h2 | ⟨-, ys2, hs2, -, -, -, hrec2⟩⟩ :=
          up_loop_step less (fuel + 1) xs k hk
        · rw [ha] at ha2; rw [hb] at hb2
          cases ha2; cases hb2
          rw [hc] at h2
          exact absurd h2.1 (by simp)
        · rw [hs] at hs2
          cases hs2
          rw [hrec2]
          rw [hrec] at hrun
          exact ih ys (get_parent_index k) zs hrun
    · exact absurd hrun (up_loop_out_of_range less _ xs k (by omega) zs)

theorem up_loop_more_fuel {α : Type} (less : α → α → Bool) (fuel more : Nat) (xs : List α)
    (k : Nat) (ys : List α) (h : enforce_heap_property_up_loop less fuel xs k = .ok ys)
    (hle : fuel ≤ more) : enforce_heap_property_up_loop less more xs k = .ok ys := by
  induction hle with
  | refl => exact h
  | step _ ih => exact up_loop_succ_fuel less _ xs k ys ih

theorem down_loop_succ_fuel {α : Type} (less : α → α → Bool) :
    ∀ (fuel : Nat) (xs : List α) (k : Nat) (ys : List α),
      enforce_heap_property_down_loop less fuel xs k = .ok ys →
      enforce_heap_property_down_loop less (fuel + 1) xs k = .ok ys := by
  intro fuel
  induction fuel with
  | zero => intro xs k ys h; simp [enforce_heap_property_down_loop] at h
  | succ fuel ih =>
    intro xs k zs hrun
    rcases down_loop_step less fuel xs k with ⟨hn, h⟩ | ⟨hkn, -, ys, hs, -, -, -, hrec⟩
    · rcases down_loop_step less (fuel + 1) xs k with ⟨-, h2⟩ | ⟨hkn2, -⟩
      · rw [h] at hrun
        rw [h2, hrun]
      · omega
    · rcases down_loop_step less (fuel + 1) xs k with ⟨hn2, -⟩ | ⟨-, -, ys2, hs2, -, -, -, hrec2⟩
      · omega
      · rw [hs] at hs2
        cases hs2
        rw [hrec2]
        rw [hrec] at hrun
        exact ih ys _ zs hrun

theorem down_loop_more_fuel {α : Type} (less : α → α → Bool) (fuel more : Nat)
    (xs : List α) (k : Nat) (ys : List α)
    (h : enforce_heap_property_down_loop less fuel xs k = .ok ys) (hle : fuel ≤ more) :
    enforce_heap_property_down_loop less more xs k = .ok ys := by
  induction hle with
  | refl => exact h
  | step _ ih => exact down_loop_succ_fuel less _ xs k ys ih

/-! ## `push` and `pop` -/

theorem push_eq {α : Type} (fuel : Nat) (h : binary_heap α) (v : α) :
    h.push fuel v =
      (enforce_heap_property_up_loop h.compare fuel (h.container ++ [v])
        h.container.length).map (fun ys => { h with container := ys }) := by
  simp only [binary_heap.push, enforce_heap_property_up, List.length_append,
    List.length_singleton, Nat.add_sub_cancel, bind, Except.bind, pure, Except.pure, Except.map]

theorem pop_eq {α : Type} (fuel : Nat) (h : binary_heap α) (a : α) (t : List α)
    (hc : h.container = a :: t) :
    h.pop fuel =
      (enforce_heap_property_down_loop h.compare fuel
        (pop_front_back h.container ((a :: t).getLast (by simp))) 0).map
        (fun ys => { h with container := ys }) := by
  have hb : h.container[h.container.length - 1]? = some ((a :: t).getLast (by simp)) := by
    rw [hc, List.getLast_eq_getElem]
    exact List.getElem?_eq_getElem (by simp)
  have h0 : h.container[0]? = some a := by rw [hc]; simp
  simp only [binary_heap.pop, enforce_heap_property_down, at_index_of_get hb,
    at_index_of_get h0, bind, Except.bind, pure, Except.pure, Except.map, pop_front_back]

theorem pop_empty {α : Type} (fuel : Nat) (h : binary_heap α) (hc : h.container = []) :
    h.pop fuel = .error .out_of_range := by
  simp [binary_heap.pop, hc, at_index, bind, Except.bind]

theorem pop_front_back_perm {α : Type} (a : α) (t : List α) :
    (a :: t).Perm (a :: pop_front_back (a :: t) ((a :: t).getLast (by simp))) := by
  unfold pop_front_back
  rcases List.eq_nil_or_concat t with ht | ⟨m, z, ht⟩
  · subst ht; simp
  · rw [List.concat_eq_append] at ht
    subst ht
    have e1 : (a :: (m ++ [z])).getLast (by simp) = z := by simp
    rw [e1]
    have e2 : ((a :: (m ++ [z])).set 0 z).dropLast = z :: m := by
      simp only [List.set_cons_zero]
      rw [← List.cons_append, List.dropLast_concat]
    rw [e2]
    exact (List.perm_append_singleton z m).cons a

theorem pop_front_back_get {α : Type} (xs : List α) (back : α) (m : Nat) (a : α)
    (hm : 0 < m) (h : (pop_front_back xs back)[m]? = some a) : xs[m]? = some a := by
  unfold pop_front_back at h
  rw [List.dropLast_eq_take, List.getElem?_take] at h
  split at h
  · rw [List.getElem?_set_ne (by omega)] at h
    exact h
  · exact absurd h (by simp)

theorem pop_front_back_length {α : Type} (xs : List α) (back : α) :
    (pop_front_back xs back).length = xs.length - 1 := by
  simp [pop_front_back]

theorem map_eq_ok {α β : Type} {f : α → β} {r : Except Fault α} {b : β}
    (h : r.map f = .ok b) : ∃ a, r = .ok a ∧ f a = b := by
  cases r with
  | error e => simp [Except.map] at h
  | ok a =>
    simp only [Except.map, Except.ok.injEq] at h
    exact ⟨a, rfl, h⟩

/-- The state in which `push` enters the sift-up loop satisfies the loop invariant. -/
theorem push_up_invariant {α : Type} (less : α → α → Bool) (xs : List α) (v : α)
    (hh : heap_property less xs) : up_invariant less (xs ++ [v]) xs.length := by
  refine ⟨by simp, ?_, ?_⟩
  · intro i a b hi0 hik ha hb
    have hi : i < xs.length := by
      have := get_lt_length ha
      simp at this
      omega
    have hp := parent_lt hi0
    rw [List.getElem?_append_left hi] at ha
    rw [List.getElem?_append_left (by omega)] at hb
    exact hh i hi hi0 a ha b hb
  · intro i a g hk0 hi0 hip ha _
    have hi := get_lt_length ha
    simp only [List.length_append, List.length_singleton] at hi
    rw [parent_eq_iff hi0] at hip
    unfold get_left_index get_right_index at hip
    omega

/-- The state in which `pop` enters the sift-down loop satisfies the loop invariant. -/
theorem pop_down_invariant {α : Type} (less : α → α → Bool) (xs : List α) (back : α)
    (hh : heap_property less xs) : down_invariant less (pop_front_back xs back) 0 := by
  refine ⟨?_, ?_⟩
  · intro i a b hi0 hip ha hb
    have hp0 : 0 < get_parent_index i := Nat.pos_of_ne_zero hip
    have ha2 := pop_front_back_get xs back i a hi0 ha
    have hb2 := pop_front_back_get xs back _ b hp0 hb
    exact hh i (get_lt_length ha2) hi0 a ha2 b hb2
  · intro i a g h0
    omega

theorem push_returns {α : Type} (fuel : Nat) (h : binary_heap α) (v : α)
    (hirr : irreflexive h.compare) (hf : h.container.length < fuel) :
    ∃ ys, h.push fuel v = .ok { h with container := ys } ∧
      ys.length = h.container.length + 1 ∧ ys.Perm (v :: h.container) := by
  obtain ⟨ys, hy, hl, hperm⟩ := up_loop_ok h.compare hirr fuel (h.container ++ [v])
    h.container.length (by simp) hf
  refine ⟨ys, ?_, by simpa using hl, hperm.trans (List.perm_append_singleton v _)⟩
  rw [push_eq, hy]
  rfl

theorem push_keeps_heap {α : Type} (fuel : Nat) (h h2 : binary_heap α) (v : α)
    (hirr : irreflexive h.compare) (htr : transitive h.compare)
    (hnt : incomparability_transitive h.compare)
    (hh : heap_property h.compare h.container) (hrun : h.push fuel v = .ok h2) :
    heap_property h2.compare h2.container := by
  rw [push_eq] at hrun
  obtain ⟨ys, hy, he⟩ := map_eq_ok hrun
  subst he
  exact up_loop_heap h.compare hirr htr hnt fuel _ _ ys
    (push_up_invariant h.compare h.container v hh) hy

theorem pop_returns {α : Type} (fuel : Nat) (h : binary_heap α) (a : α) (t : List α)
    (hc : h.container = a :: t) (hf : h.container.length ≤ fuel) :
    ∃ ys, h.pop fuel = .ok { h with container := ys } ∧
      ys.length + 1 = h.container.length ∧ h.container.Perm (a :: ys) := by
  have hlen : h.container.length = t.length + 1 := by rw [hc]; rfl
  obtain ⟨ys, hy, hl, hperm⟩ := down_loop_ok h.compare fuel
    (pop_front_back h.container ((a :: t).getLast (by simp))) 0 (by omega)
    (by rw [pop_front_back_length]; omega)
  rw [pop_front_back_length] at hl
  refine ⟨ys, ?_, by omega, ?_⟩
  · rw [pop_eq fuel h a t hc, hy]
    rfl
  · have hp := pop_front_back_perm a t
    rw [hc] at hperm ⊢
    exact hp.trans (hperm.symm.cons a)

theorem pop_keeps_heap {α : Type} (fuel : Nat) (h h2 : binary_heap α)
    (hirr : irreflexive h.compare) (htr : transitive h.compare)
    (hh : heap_property h.compare h.container) (hrun : h.pop fuel = .ok h2) :
    heap_property h2.compare h2.container := by
  cases hc : h.container with
  | nil =>
    rw [pop_empty fuel h hc] at hrun
    exact absurd hrun (by simp)
  | cons a t =>
    rw [pop_eq fuel h a t hc] at hrun
    obtain ⟨ys, hy, he⟩ := map_eq_ok hrun
    subst he
    exact down_loop_heap h.compare hirr htr fuel _ 0 ys
      (pop_down_invariant h.compare h.container _ hh) hy

theorem push_more_fuel {α : Type} (fuel more : Nat) (h h2 : binary_heap α) (v : α)
    (hrun : h.push fuel v = .ok h2) (hle : fuel ≤ more) : h.push more v = .ok h2 := by
  rw [push_eq] at hrun ⊢
  obtain ⟨ys, hy, he⟩ := map_eq_ok hrun
  rw [up_loop_more_fuel h.compare fuel more _ _ ys hy hle]
  exact congrArg Except.ok he

theorem pop_more_fuel {α : Type} (fuel more : Nat) (h h2 : binary_heap α)
    (hrun : h.pop fuel = .ok h2) (hle : fuel ≤ more) : h.pop more = .ok h2 := by
  cases hc : h.container with
  | nil =>
    rw [pop_empty fuel h hc] at hrun
    exact absurd hrun (by simp)
  | cons a t =>
    rw [pop_eq fuel h a t hc] at hrun
    rw [pop_eq more h a t hc]
    obtain ⟨ys, hy, he⟩ := map_eq_ok hrun
    rw [down_loop_more_fuel h.compare fuel more _ _ ys hy hle]
    exact congrArg Except.ok he


/-! ## The two standard orderings and the product order -/

theorem std_less_irreflexive : irreflexive std_less := by
  intro a; simp [std_less]

theorem std_less_transitive : transitive std_less := by
  intro a b c; simp only [std_less, decide_eq_true_eq]; omega

theorem std_less_incomparability : incomparability_transitive std_less := by
  intro a b c; simp only [std_less, decide_eq_false_iff_not]; omega

theorem std_greater_irreflexive : irreflexive std_greater := by
  intro a; simp [std_greater]

theorem std_greater_transitive : transitive std_greater := by
  intro a b c; simp only [std_greater, decide_eq_true_eq]; omega

theorem std_greater_incomparability : incomparability_transitive std_greater := by
  intro a b c; simp only [std_greater, decide_eq_false_iff_not]; omega

theorem pair_less_irreflexive : irreflexive pair_less := by
  intro a; simp [pair_less]

theorem pair_less_transitive : transitive pair_less := by
  intro a b c
  simp only [pair_less, Bool.and_eq_true, decide_eq_true_eq]
  omega

/-- In a heap under an irreflexive predicate with transitive incomparability, no
element outranks the root. -/
theorem heap_root_extreme {α : Type} (less : α → α → Bool) (hirr : irreflexive less)
    (hnt : incomparability_transitive less) (xs : List α) (hh : heap_property less xs)
    (r : α) (h0 : xs[0]? = some r) :
    ∀ (i : Nat) (x : α), xs[i]? = some x → less x r = false := by
  intro i
  induction i using Nat.strong_induction_on with
  | _ i ih =>
    intro x hx
    rcases Nat.eq_zero_or_pos i with hi | hi
    · subst hi
      rw [h0] at hx
      cases hx
      exact hirr r
    · have hlen := get_lt_length hx
      have hp := parent_lt hi
      have hpx : xs[get_parent_index i]? = some xs[get_parent_index i] :=
        List.getElem?_eq_getElem (by omega)
      exact hnt x _ r (hh i hlen hi x hx _ hpx) (ih _ hp _ hpx)

/-! ## Sequences of calls -/

theorem bind_eq_ok {α β : Type} {r : Except Fault α} {f : α → Except Fault β} {b : β}
    (h : r.bind f = .ok b) : ∃ a, r = .ok a ∧ f a = .ok b := by
  cases r with
  | error e => simp [Except.bind] at h
  | ok a => exact ⟨a, rfl, h⟩

theorem run_push {α : Type} (fuel : Nat) (v : α) (cs : List (Call α)) (h : binary_heap α) :
    run fuel (.push v :: cs) h = (h.push fuel v).bind (fun h2 => run fuel cs h2) := rfl

theorem run_pop {α : Type} (fuel : Nat) (cs : List (Call α)) (h : binary_heap α) :
    run fuel (.pop :: cs) h = (h.pop fuel).bind (fun h2 => run fuel cs h2) := rfl

theorem extract_all_succ {α : Type} (fuel rounds : Nat) (h : binary_heap α) :
    extract_all fuel (rounds + 1) h =
      h.top.bind (fun a => (h.pop fuel).bind (fun h2 =>
        (extract_all fuel rounds h2).bind (fun r => .ok (a :: r.1, r.2)))) := rfl

theorem run_more_fuel {α : Type} (fuel more : Nat) (hle : fuel ≤ more) :
    ∀ (cs : List (Call α)) (h h2 : binary_heap α),
      run fuel cs h = .ok h2 → run more cs h = .ok h2 := by
  intro cs
  induction cs with
  | nil => intro h h2 hr; exact hr
  | cons c cs ih =>
    intro h h2 hr
    cases c with
    | push v =>
      rw [run_push] at hr ⊢
      obtain ⟨h1, hp, hrest⟩ := bind_eq_ok hr
      rw [push_more_fuel fuel more h h1 v hp hle]
      exact ih h1 h2 hrest
    | pop =>
      rw [run_pop] at hr ⊢
      obtain ⟨h1, hp, hrest⟩ := bind_eq_ok hr
      rw [pop_more_fuel fuel more h h1 hp hle]
      exact ih h1 h2 hrest

theorem extract_all_more_fuel {α : Type} (fuel more : Nat) (hle : fuel ≤ more) :
    ∀ (rounds : Nat) (h : binary_heap α) (r : List α × binary_heap α),
      extract_all fuel rounds h = .ok r → extract_all more rounds h = .ok r := by
  intro rounds
  induction rounds with
  | zero => intro h r hr; exact hr
  | succ n ih =>
    intro h r hr
    rw [extract_all_succ] at hr ⊢
    obtain ⟨a, ha, hr⟩ := bind_eq_ok hr
    obtain ⟨h1, hp, hr⟩ := bind_eq_ok hr
    obtain ⟨r1, hx, hr⟩ := bind_eq_ok hr
    rw [ha, pop_more_fuel fuel more h h1 hp hle]
    simp only [Except.bind]
    rw [ih h1 r1 hx]
    exact hr

theorem up_loop_perm {α : Type} (less : α → α → Bool) :
    ∀ (fuel : Nat) (xs : List α) (k : Nat) (ys : List α),
      enforce_heap_property_up_loop less fuel xs k = .ok ys →
      ys.length = xs.length ∧ ys.Perm xs := by
  intro fuel
  induction fuel with
  | zero => intro xs k ys h; simp [enforce_heap_property_up_loop] at h
  | succ fuel ih =>
    intro xs k zs hrun
    by_cases hk : k < xs.length
    · obtain ⟨a, b, -, -, h | ⟨-, ys, -, hl, -, hperm, hrec⟩⟩ := up_loop_step less fuel xs k hk
      · rw [h.2] at hrun
        cases hrun
        exact ⟨rfl, List.Perm.refl _⟩
      · rw [hrec] at hrun
        obtain ⟨h1, h2⟩ := ih ys _ zs hrun
        exact ⟨by omega, h2.trans hperm⟩
    · exact absurd hrun (up_loop_out_of_range less _ xs k (by omega) zs)

theorem down_loop_perm {α : Type} (less : α → α → Bool) :
    ∀ (fuel : Nat) (xs : List α) (k : Nat) (ys : List α),
      enforce_heap_property_down_loop less fuel xs k = .ok ys →
      ys.length = xs.length ∧ ys.Perm xs := by
  intro fuel
  induction fuel with
  | zero => intro xs k ys h; simp [enforce_heap_property_down_loop] at h
  | succ fuel ih =>
    intro xs k zs hrun
    rcases down_loop_step less fuel xs k with ⟨-, h⟩ | ⟨-, -, ys, -, hl, -, hperm, hrec⟩
    · rw [h] at hrun
      cases hrun
      exact ⟨rfl, List.Perm.refl _⟩
    · rw [hrec] at hrun
      obtain ⟨h1, h2⟩ := ih ys _ zs hrun
      exact ⟨by omega, h2.trans hperm⟩

/-- What a returning `push` does to the state, whatever the predicate. -/
theorem push_effect {α : Type} (fuel : Nat) (h h2 : binary_heap α) (v : α)
    (hrun : h.push fuel v = .ok h2) :
    h2.compare = h.compare ∧ h2.size = h.size + 1 ∧ h2.container.Perm (v :: h.container) := by
  rw [push_eq] at hrun
  obtain ⟨ys, hy, he⟩ := map_eq_ok hrun
  subst he
  obtain ⟨hl, hperm⟩ := up_loop_perm h.compare fuel _ _ ys hy
  refine ⟨rfl, ?_, hperm.trans (List.perm_append_singleton v _)⟩
  simpa [binary_heap.size] using hl

/-- What a returning `pop` does to the state, whatever the predicate. -/
theorem pop_effect {α : Type} (fuel : Nat) (h h2 : binary_heap α)
    (hrun : h.pop fuel = .ok h2) :
    h2.compare = h.compare ∧ h2.size + 1 = h.size ∧
      ∃ a, h.top = .ok a ∧ h.container.Perm (a :: h2.container) := by
  cases hc : h.container with
  | nil =>
    rw [pop_empty fuel h hc] at hrun
    exact absurd hrun (by simp)
  | cons a t =>
    rw [pop_eq fuel h a t hc] at hrun
    obtain ⟨ys, hy, he⟩ := map_eq_ok hrun
    subst he
    obtain ⟨hl, hperm⟩ := down_loop_perm h.compare fuel _ _ ys hy
    rw [pop_front_back_length, hc] at hl
    refine ⟨rfl, ?_, a, ?_, ?_⟩
    · simp only [binary_heap.size, hc]
      simp only [List.length_cons] at hl ⊢
      omega
    · exact at_index_of_get (by rw [hc]; simp)
    · have hp := pop_front_back_perm a t
      rw [hc] at hperm
      exact hp.trans (hperm.symm.cons a)

theorem run_size {α : Type} (fuel : Nat) :
    ∀ (cs : List (Call α)) (h h2 : binary_heap α), run fuel cs h = .ok h2 →
      h2.compare = h.compare ∧ h2.size + count_pop cs = h.size + count_push cs := by
  intro cs
  induction cs with
  | nil =>
    intro h h2 hr
    cases hr
    exact ⟨rfl, rfl⟩
  | cons c cs ih =>
    intro h h2 hr
    cases c with
    | push v =>
      rw [run_push] at hr
      obtain ⟨h1, hp, hrest⟩ := bind_eq_ok hr
      obtain ⟨e1, e2, -⟩ := push_effect fuel h h1 v hp
      obtain ⟨e3, e4⟩ := ih h1 h2 hrest
      refine ⟨e3.trans e1, ?_⟩
      simp only [count_pop, count_push]
      omega
    | pop =>
      rw [run_pop] at hr
      obtain ⟨h1, hp, hrest⟩ := bind_eq_ok hr
      obtain ⟨e1, e2, -⟩ := pop_effect fuel h h1 hp
      obtain ⟨e3, e4⟩ := ih h1 h2 hrest
      refine ⟨e3.trans e1, ?_⟩
      simp only [count_pop, count_push]
      omega

theorem run_returns {α : Type} (fuel : Nat) :
    ∀ (cs : List (Call α)) (h : binary_heap α), irreflexive h.compare →
      h.size + count_push cs < fuel → never_pops_empty fuel cs h = true →
      ∃ h2, run fuel cs h = .ok h2 := by
  intro cs
  induction cs with
  | nil => intro h _ _ _; exact ⟨h, rfl⟩
  | cons c cs ih =>
    intro h hirr hf hg
    cases c with
    | push v =>
      obtain ⟨ys, hy, hl, -⟩ := push_returns fuel h v hirr
        (by simp only [binary_heap.size, count_push] at hf; omega)
      rw [run_push, hy]
      simp only [never_pops_empty, hy] at hg
      refine ih _ hirr ?_ hg
      simp only [binary_heap.size, count_push] at hf ⊢
      omega
    | pop =>
      simp only [never_pops_empty, Bool.and_eq_true, Bool.not_eq_true'] at hg
      cases hc : h.container with
      | nil => simp [binary_heap.empty, hc] at hg
      | cons a t =>
        obtain ⟨ys, hy, hl, -⟩ := pop_returns fuel h a t hc
          (by simp only [binary_heap.size, count_push] at hf; omega)
        rw [run_pop, hy]
        rw [hy] at hg
        refine ih _ hirr ?_ hg.2
        simp only [binary_heap.size, count_push] at hf ⊢
        omega

theorem push_all_cons {α : Type} (fuel : Nat) (v : α) (vs : List α) (h : binary_heap α) :
    push_all fuel (v :: vs) h = (h.push fuel v).bind (fun h2 => push_all fuel vs h2) := rfl

/-- Pushing a list of values onto a heap under a strict weak ordering returns a heap
holding the old and the new values. -/
theorem push_all_heap {α : Type} (less : α → α → Bool) (hirr : irreflexive less)
    (htr : transitive less) (hnt : incomparability_transitive less) (fuel : Nat) :
    ∀ (vs xs : List α), heap_property less xs → xs.length + vs.length < fuel →
      ∃ ys, push_all fuel vs ⟨xs, less⟩ = .ok ⟨ys, less⟩ ∧ heap_property less ys ∧
        ys.Perm (vs ++ xs) := by
  intro vs
  induction vs with
  | nil => intro xs hh _; exact ⟨xs, rfl, hh, List.Perm.refl _⟩
  | cons v vs ih =>
    intro xs hh hf
    simp only [List.length_cons] at hf
    obtain ⟨ys, hy, hl, hperm⟩ := push_returns fuel ⟨xs, less⟩ v hirr (by simp only; omega)
    have hh1 : heap_property less ys :=
      push_keeps_heap fuel ⟨xs, less⟩ ⟨ys, less⟩ v hirr htr hnt hh hy
    simp only at hl
    obtain ⟨zs, hz, hh2, hperm2⟩ := ih ys hh1 (by omega)
    refine ⟨zs, ?_, hh2, ?_⟩
    · rw [push_all_cons, hy]
      exact hz
    · exact hperm2.trans ((hperm.append_left vs).trans List.perm_middle)

/-- Extracting as many values as a heap under a strict weak ordering holds empties it,
and yields its values in an order in which no later value outranks an earlier one. -/
theorem extract_all_sorted {α : Type} (less : α → α → Bool) (hirr : irreflexive less)
    (htr : transitive less) (hnt : incomparability_transitive less) (fuel : Nat) :
    ∀ (n : Nat) (xs : List α), heap_property less xs → xs.length = n → n ≤ fuel →
      ∃ out, extract_all fuel n ⟨xs, less⟩ = .ok (out, ⟨[], less⟩) ∧ out.Perm xs ∧
        out.Pairwise (fun a b => less b a = false) := by
  intro n
  induction n with
  | zero =>
    intro xs _ hl _
    have : xs = [] := List.length_eq_zero.mp hl
    subst this
    exact ⟨[], rfl, List.Perm.refl _, List.Pairwise.nil⟩
  | succ n ih =>
    intro xs hh hl hf
    cases xs with
    | nil => simp at hl
    | cons a t =>
      obtain ⟨ys, hy, hyl, hperm⟩ := pop_returns fuel ⟨a :: t, less⟩ a t rfl (by simp only; omega)
      have hh1 : heap_property less ys :=
        pop_keeps_heap fuel ⟨a :: t, less⟩ ⟨ys, less⟩ hirr htr hh hy
      simp only at hyl hperm
      obtain ⟨out, ho, hop, hos⟩ := ih ys hh1 (by omega) (by omega)
      have h0 : (a :: t)[0]? = some a := by simp
      have htop : binary_heap.top ⟨a :: t, less⟩ = .ok a := at_index_of_get h0
      refine ⟨a :: out, ?_, ?_, ?_⟩
      · rw [extract_all_succ, htop]
        simp only [Except.bind]
        rw [hy]
        simp only [Except.bind]
        rw [ho]
      · exact (hop.cons a).trans hperm.symm
      · refine List.Pairwise.cons ?_ hos
        intro b hb
        have hb2 : b ∈ a :: t := hperm.symm.subset (List.mem_cons_of_mem a (hop.subset hb))
        obtain ⟨i, hi, hib⟩ := List.getElem_of_mem hb2
        exact heap_root_extreme less hirr hnt (a :: t) hh a h0 i b
          (by rw [List.getElem?_eq_getElem hi, hib])

/-- Heap sort: pushing a list onto the empty heap of a strict weak ordering and
extracting as many values returns, empties the heap, and yields a rearrangement of the
list in which no later value outranks an earlier one. -/
theorem push_then_extract_sorted {α : Type} (less : α → α → Bool) (hirr : irreflexive less)
    (htr : transitive less) (hnt : incomparability_transitive less) (fuel : Nat)
    (vs : List α) (hf : vs.length < fuel) :
    ∃ out, push_then_extract fuel vs (binary_heap.create less) = .ok (out, ⟨[], less⟩) ∧
      out.Perm vs ∧ out.Pairwise (fun a b => less b a = false) := by
  have h0 : heap_property less ([] : List α) := by
    intro i hi
    simp at hi
  obtain ⟨ys, hy, hh, hperm⟩ := push_all_heap less hirr htr hnt fuel vs [] h0
    (by simp only [List.length_nil]; omega)
  have hlen : ys.length = vs.length := by simpa using hperm.length_eq
  obtain ⟨out, ho, hop, hos⟩ := extract_all_sorted less hirr htr hnt fuel vs.length ys hh hlen
    (by omega)
  refine ⟨out, ?_, hop.trans (by simpa using hperm), hos⟩
  unfold push_then_extract binary_heap.create
  simp only [bind, Except.bind]
  rw [hy]
  exact ho

theorem push_then_extract_more_fuel {α : Type} (fuel more : Nat) (hle : fuel ≤ more)
    (vs : List α) (h : binary_heap α) (r : List α × binary_heap α)
    (hr : push_then_extract fuel vs h = .ok r) : push_then_extract more vs h = .ok r := by
  unfold push_then_extract at hr ⊢
  obtain ⟨h1, hp, hx⟩ := bind_eq_ok hr
  have hp2 : push_all more vs h = .ok h1 := run_more_fuel fuel more hle _ h h1 hp
  simp only [bind]
  rw [hp2]
  exact extract_all_more_fuel fuel more hle _ h1 r hx

/-! ## The claims -/

/-- C1, as stated, fails: under the product order on pairs (irreflexive and
transitive) the sequence `(3,3), (1,5), (3,3), (2,2)` satisfies the heap property, and
`push((0,0))` returns `(0,0), (3,3), (3,3), (2,2), (1,5)`, where the element at index 3
outranks its parent at index 1. -/
theorem push_partial_order_counterexample :
    irreflexive pair_less ∧ transitive pair_less ∧
    heap_property pair_less [(3, 3), (1, 5), (3, 3), (2, 2)] ∧
    (∀ fuel, 4 < fuel →
      binary_heap.push fuel ⟨[(3, 3), (1, 5), (3, 3), (2, 2)], pair_less⟩ (0, 0) =
        .ok ⟨[(0, 0), (3, 3), (3, 3), (2, 2), (1, 5)], pair_less⟩) ∧
    ¬ heap_property pair_less [(0, 0), (3, 3), (3, 3), (2, 2), (1, 5)] := by
  refine ⟨pair_less_irreflexive, pair_less_transitive, by decide, ?_, by decide⟩
  intro fuel hf
  exact push_more_fuel 5 fuel _ _ _ rfl (by omega)

/-- C1 (amended): for every ordering predicate that is irreflexive and transitive and
whose incomparability is transitive (a strict weak ordering), every backing sequence
that satisfies the heap property and every value `v`, `push(v)` returns (given fuel
above the size), keeps the predicate, makes the size one larger, and the new sequence
satisfies the heap property at every index `i > 0`. -/
theorem push_preserves_heap_property {α : Type} (h : binary_heap α) (v : α) (fuel : Nat)
    (hirr : irreflexive h.compare) (htr : transitive h.compare)
    (hnt : incomparability_transitive h.compare)
    (hh : heap_property h.compare h.container) (hf : h.container.length < fuel) :
    ∃ h2, h.push fuel v = .ok h2 ∧ h2.compare = h.compare ∧ h2.size = h.size + 1 ∧
      heap_property h2.compare h2.container := by
  obtain ⟨ys, hy, hl, -⟩ := push_returns fuel h v hirr hf
  exact ⟨_, hy, rfl, hl, push_keeps_heap fuel h _ v hirr htr hnt hh hy⟩

theorem push_preserves_heap_property_witness :
    heap_property std_less [1, 3] ∧
    ∃ h2, binary_heap.push 3 ⟨[1, 3], std_less⟩ 0 = .ok h2 ∧ h2.compare = std_less ∧
      h2.size = 3 ∧ heap_property h2.compare h2.container :=
  ⟨by decide, push_preserves_heap_property ⟨[1, 3], std_less⟩ 0 3 std_less_irreflexive
    std_less_transitive std_less_incomparability (by decide) (by decide)⟩

/-- C2: for every ordering predicate that is irreflexive and transitive and every
non-empty backing sequence that satisfies the heap property, `pop()` returns (given
fuel of at least the size), keeps the predicate, makes the size one smaller, and the new
sequence satisfies the heap property at every index `i > 0`; sequences of one or two
elements are included. -/
theorem pop_preserves_heap_property {α : Type} (h : binary_heap α) (fuel : Nat)
    (hirr : irreflexive h.compare) (htr : transitive h.compare)
    (hne : h.container ≠ [])
    (hh : heap_property h.compare h.container) (hf : h.container.length ≤ fuel) :
    ∃ h2, h.pop fuel = .ok h2 ∧ h2.compare = h.compare ∧ h2.size + 1 = h.size ∧
      heap_property h2.compare h2.container := by
  cases hc : h.container with
  | nil => exact absurd hc hne
  | cons a t =>
    obtain ⟨ys, hy, hl, -⟩ := pop_returns fuel h a t hc hf
    rw [hc] at hl
    refine ⟨_, hy, rfl, ?_, pop_keeps_heap fuel h _ hirr htr hh hy⟩
    simp only [binary_heap.size, hc]
    exact hl

theorem pop_preserves_heap_property_witness :
    heap_property pair_less [(1, 1), (2, 5), (5, 2), (3, 3)] ∧
    ∃ h2, binary_heap.pop 4 ⟨[(1, 1), (2, 5), (5, 2), (3, 3)], pair_less⟩ = .ok h2 ∧
      h2.compare = pair_less ∧ h2.size + 1 = 4 ∧ heap_property h2.compare h2.container :=
  ⟨by decide, pop_preserves_heap_property ⟨[(1, 1), (2, 5), (5, 2), (3, 3)], pair_less⟩ 4
    pair_less_irreflexive pair_less_transitive (by simp) (by decide) (by decide)⟩

/-- C3 fails on the code: `emplace` appends and does not sift up.  On the min-heap
holding `1`, `emplace(0)` leaves the sequence `1, 0`, which violates the heap property
and whose front is still `1`, whereas `push(0)` leaves `0, 1`. -/
theorem emplace_skips_sift_up :
    (∀ (h : binary_heap Int) (v : Int), (h.emplace v).container = h.container ++ [v]) ∧
    (binary_heap.emplace ⟨[1], std_less⟩ 0).container = [1, 0] ∧
    (binary_heap.emplace ⟨[1], std_less⟩ 0).top = .ok 1 ∧
    heap_property std_less [1] ∧
    ¬ heap_property std_less (binary_heap.emplace ⟨[1], std_less⟩ 0).container ∧
    (∀ fuel, 1 < fuel →
      binary_heap.push fuel ⟨[1], std_less⟩ 0 = .ok ⟨[0, 1], std_less⟩) := by
  refine ⟨fun _ _ => rfl, rfl, rfl, by decide, by decide, ?_⟩
  intro fuel hf
  exact push_more_fuel 2 fuel _ _ _ rfl (by omega)

/-- C5, as stated, fails: under the product order on pairs (irreflexive and
transitive) the sequence `(3,3), (1,5), (3,3), (2,2)` satisfies the heap property, yet
the element at index 3 outranks the root that `top()` returns.  The converse fails
too: in `1, 5, 3, 2` under `<` nothing outranks the root, and the heap property is
violated at index 3. -/
theorem root_extreme_counterexample :
    (irreflexive pair_less ∧ transitive pair_less ∧
      heap_property pair_less [(3, 3), (1, 5), (3, 3), (2, 2)] ∧
      binary_heap.top ⟨[(3, 3), (1, 5), (3, 3), (2, 2)], pair_less⟩ = .ok (3, 3) ∧
      ([(3, 3), (1, 5), (3, 3), (2, 2)] : List (Nat × Nat))[3]? = some (2, 2) ∧
      pair_less (2, 2) (3, 3) = true) ∧
    ((∀ (i : Nat) (x : Int), ([1, 5, 3, 2] : List Int)[i]? = some x → std_less x 1 = false) ∧
      ¬ heap_property std_less [1, 5, 3, 2]) := by
  refine ⟨⟨pair_less_irreflexive, pair_less_transitive, by decide, rfl, rfl, rfl⟩, ?_,
    by decide⟩
  intro i x hx
  have hi : i < 4 := get_lt_length hx
  interval_cases i <;> simp at hx <;> subst hx <;> decide

/-- C5 (amended): for every ordering predicate that is irreflexive and transitive and
whose incomparability is transitive (a strict weak ordering) and every non-empty
backing sequence that satisfies the heap property, `top()` returns `seq[0]`, and for
every index `i < size`, `less(seq[i], seq[0])` is false. -/
theorem top_is_extreme {α : Type} (h : binary_heap α)
    (hirr : irreflexive h.compare) (_htr : transitive h.compare)
    (hnt : incomparability_transitive h.compare) (hne : h.container ≠ [])
    (hh : heap_property h.compare h.container) :
    ∃ r, h.top = .ok r ∧ h.container[0]? = some r ∧
      ∀ i, i < h.size → ∀ x, h.container[i]? = some x → h.compare x r = false := by
  cases hc : h.container with
  | nil => exact absurd hc hne
  | cons a t =>
    have h0 : h.container[0]? = some a := by rw [hc]; simp
    refine ⟨a, ?_, by simp, ?_⟩
    · exact at_index_of_get h0
    · intro i _ x hx
      rw [← hc] at hx
      exact heap_root_extreme h.compare hirr hnt h.container hh a h0 i x hx

theorem top_is_extreme_witness :
    heap_property std_less [1, 3, 2, 7] ∧
    ∃ r, binary_heap.top ⟨[1, 3, 2, 7], std_less⟩ = .ok r ∧
      ([1, 3, 2, 7] : List Int)[0]? = some r ∧
      ∀ i, i < 4 → ∀ x, ([1, 3, 2, 7] : List Int)[i]? = some x → std_less x r = false :=
  ⟨by decide, top_is_extreme ⟨[1, 3, 2, 7], std_less⟩ std_less_irreflexive
    std_less_transitive std_less_incomparability (by simp) (by decide)⟩

/-- C4: for a min-heap of integers and every list `S`, pushing every element of `S`
in order onto an empty heap and then performing `|S|` rounds of `top()` followed by
`pop()` returns (given fuel above `|S|`), yields exactly `S` sorted in non-decreasing
order (a rearrangement of `S`, duplicates included), and leaves the heap empty. -/
theorem min_heap_sorts (S : List Int) (fuel : Nat) (hf : S.length < fuel) :
    ∃ out h2, push_then_extract fuel S binary_min_heap = .ok (out, h2) ∧
      out.Sorted (· ≤ ·) ∧ out.Perm S ∧ out = S.insertionSort (· ≤ ·) ∧
      h2.empty = true := by
  obtain ⟨out, ho, hperm, hs⟩ := push_then_extract_sorted std_less std_less_irreflexive
    std_less_transitive std_less_incomparability fuel S hf
  have hsorted : out.Sorted (· ≤ ·) := by
    refine List.Pairwise.imp ?_ hs
    intro a b hab
    simp only [std_less, decide_eq_false_iff_not] at hab
    omega
  refine ⟨out, ⟨[], std_less⟩, ho, hsorted, hperm, ?_, rfl⟩
  exact List.eq_of_perm_of_sorted (hperm.trans (List.perm_insertionSort _ S).symm) hsorted
    (List.sorted_insertionSort _ S)

theorem min_heap_sorts_witness :
    ∃ out h2, push_then_extract 6 [2, 7, 2, -1, 7] binary_min_heap = .ok (out, h2) ∧
      out.Sorted (· ≤ ·) ∧ out.Perm [2, 7, 2, -1, 7] ∧
      out = [2, 7, 2, -1, 7].insertionSort (· ≤ ·) ∧ h2.empty = true :=
  min_heap_sorts [2, 7, 2, -1, 7] 6 (by decide)

/-- C6: for a max-heap of integers and every list `S`, pushing every element of `S`
onto an empty heap and then repeating `top()` followed by `pop()` `|S|` times returns
(given fuel above `|S|`) and yields the elements of `S` in non-increasing order; for
the insertions 5, 3, 8, 1, 4 the top is 8 and the full extraction order is
8, 5, 4, 3, 1. -/
theorem max_heap_sorts :
    (∀ (S : List Int) (fuel : Nat), S.length < fuel →
      ∃ out h2, push_then_extract fuel S binary_max_heap = .ok (out, h2) ∧
        out.Sorted (· ≥ ·) ∧ out.Perm S ∧ h2.empty = true) ∧
    (∀ fuel, 5 < fuel →
      (push_all fuel [5, 3, 8, 1, 4] binary_max_heap).bind binary_heap.top = .ok 8 ∧
      push_then_extract fuel [5, 3, 8, 1, 4] binary_max_heap =
        .ok ([8, 5, 4, 3, 1], ⟨[], std_greater⟩)) := by
  constructor
  · intro S fuel hf
    obtain ⟨out, ho, hperm, hs⟩ := push_then_extract_sorted std_greater
      std_greater_irreflexive std_greater_transitive std_greater_incomparability fuel S hf
    refine ⟨out, ⟨[], std_greater⟩, ho, ?_, hperm, rfl⟩
    refine List.Pairwise.imp ?_ hs
    intro a b hab
    simp only [std_greater, decide_eq_false_iff_not] at hab
    omega
  · intro fuel hf
    have e1 : push_all 6 [5, 3, 8, 1, 4] binary_max_heap =
        .ok ⟨[8, 4, 5, 1, 3], std_greater⟩ := rfl
    have e2 : push_then_extract 6 [5, 3, 8, 1, 4] binary_max_heap =
        .ok ([8, 5, 4, 3, 1], ⟨[], std_greater⟩) := rfl
    constructor
    · rw [show push_all fuel [5, 3, 8, 1, 4] binary_max_heap = _ from
        run_more_fuel 6 fuel (by omega) _ _ _ e1]
      rfl
    · exact push_then_extract_more_fuel 6 fuel (by omega) _ _ _ e2

theorem max_heap_sorts_witness :
    ∃ out h2, push_then_extract 4 [2, 9, 2] binary_max_heap = .ok (out, h2) ∧
      out.Sorted (· ≥ ·) ∧ out.Perm [2, 9, 2] ∧ h2.empty = true :=
  max_heap_sorts.1 [2, 9, 2] 4 (by decide)

/-- C7: a freshly constructed heap has `size()` 0 and `empty()` true; `empty()` is
true exactly when `size()` is 0; a returning `push` adds exactly one to `size()` and a
returning `pop` subtracts exactly one; and starting from an empty heap, whenever an
interleaving of `n` push calls and `m` pop calls returns, `m ≤ n` and `size()` equals
`n - m`.  The interleaving does return when the predicate is irreflexive, no `pop` is
applied to an empty heap, and the fuel exceeds `n`. -/
theorem size_after_calls {α : Type} (compare : α → α → Bool) (calls : List (Call α))
    (fuel : Nat) :
    (binary_heap.create compare).size = 0 ∧ (binary_heap.create compare).empty = true ∧
    (∀ h : binary_heap α, h.empty = true ↔ h.size = 0) ∧
    (∀ (h h2 : binary_heap α) (v : α), h.push fuel v = .ok h2 → h2.size = h.size + 1) ∧
    (∀ (h h2 : binary_heap α), h.pop fuel = .ok h2 → h2.size + 1 = h.size) ∧
    (∀ h2, run fuel calls (binary_heap.create compare) = .ok h2 →
      count_pop calls ≤ count_push calls ∧
      h2.size = count_push calls - count_pop calls) ∧
    (irreflexive compare → count_push calls < fuel →
      never_pops_empty fuel calls (binary_heap.create compare) = true →
      ∃ h2, run fuel calls (binary_heap.create compare) = .ok h2) := by
  refine ⟨rfl, rfl, ?_, ?_, ?_, ?_, ?_⟩
  · intro h
    simp [binary_heap.empty, binary_heap.size, List.isEmpty_iff]
  · intro h h2 v hr
    exact (push_effect fuel h h2 v hr).2.1
  · intro h h2 hr
    exact (pop_effect fuel h h2 hr).2.1
  · intro h2 hr
    have := (run_size fuel calls _ h2 hr).2
    simp only [binary_heap.create, binary_heap.size, List.length_nil] at this
    simp only [binary_heap.size]
    omega
  · intro hirr hf hg
    exact run_returns fuel calls _ hirr
      (by simp only [binary_heap.create, binary_heap.size, List.length_nil]; omega) hg

theorem size_after_calls_witness :
    ∃ h2, run 4 [Call.push 5, Call.push 3, Call.pop, Call.push 8, Call.pop]
        (binary_heap.create std_less) = .ok h2 ∧ h2.size = 3 - 2 ∧ h2.empty = false :=
  have hw := size_after_calls std_less
    [Call.push 5, Call.push 3, Call.pop, Call.push 8, Call.pop] 4
  have ⟨h2, hr⟩ := hw.2.2.2.2.2.2 std_less_irreflexive (by decide) rfl
  have hs := (hw.2.2.2.2.2.1 h2 hr).2
  ⟨h2, hr, hs, by
    cases he : h2.empty
    · rfl
    · have h0 := (hw.2.2.1 h2).mp he
      rw [hs] at h0
      exact absurd h0 (by decide)⟩

/-- C8: in the min-heap scenario on integers, starting from an empty heap, after
push 5, 3, 8, 1, 4 in that order `top()` is 1; after one `pop()` `top()` is 3; after a
subsequent `push(0)` `top()` is 0. -/
theorem min_heap_scenario_tops (fuel : Nat) (hf : 5 < fuel) :
    (run fuel scenario_pushes binary_min_heap).bind binary_heap.top = .ok 1 ∧
    (run fuel scenario_pop binary_min_heap).bind binary_heap.top = .ok 3 ∧
    (run fuel scenario_push_zero binary_min_heap).bind binary_heap.top = .ok 0 := by
  have e1 : run 6 scenario_pushes binary_min_heap = .ok ⟨[1, 3, 8, 5, 4], std_less⟩ := rfl
  have e2 : run 6 scenario_pop binary_min_heap = .ok ⟨[3, 4, 8, 5], std_less⟩ := rfl
  have e3 : run 6 scenario_push_zero binary_min_heap = .ok ⟨[0, 3, 8, 5, 4], std_less⟩ := rfl
  rw [run_more_fuel 6 fuel (by omega) _ _ _ e1, run_more_fuel 6 fuel (by omega) _ _ _ e2,
    run_more_fuel 6 fuel (by omega) _ _ _ e3]
  exact ⟨rfl, rfl, rfl⟩

theorem min_heap_scenario_tops_witness :
    (run 6 scenario_pushes binary_min_heap).bind binary_heap.top = .ok 1 ∧
    (run 6 scenario_pop binary_min_heap).bind binary_heap.top = .ok 3 ∧
    (run 6 scenario_push_zero binary_min_heap).bind binary_heap.top = .ok 0 :=
  min_heap_scenario_tops 6 (by decide)

/-- C9, as stated, fails: in the min-heap scenario (push 5, 3, 8, 1, 4; pop; push 0)
the heap holds five elements, so the four rounds of `top()` and `pop()` that follow
extract 0, 3, 4, 5, not 3, 4, 5, 8, and leave the heap holding 8: `empty()` is false. -/
theorem four_pops_counterexample :
    (∀ fuel, 5 < fuel →
      (run fuel scenario_push_zero binary_min_heap).bind (extract_all fuel 4) =
        .ok ([0, 3, 4, 5], ⟨[8], std_less⟩)) ∧
    ([0, 3, 4, 5] : List Int) ≠ [3, 4, 5, 8] ∧
    binary_heap.empty ⟨[8], std_less⟩ = false ∧
    binary_heap.size ⟨[8], std_less⟩ = 1 := by
  refine ⟨?_, by decide, rfl, rfl⟩
  intro fuel hf
  have e3 : run 6 scenario_push_zero binary_min_heap = .ok ⟨[0, 3, 8, 5, 4], std_less⟩ := rfl
  have x4 : extract_all 6 4 ⟨[0, 3, 8, 5, 4], std_less⟩ =
      .ok ([0, 3, 4, 5], ⟨[8], std_less⟩) := rfl
  rw [run_more_fuel 6 fuel (by omega) _ _ _ e3]
  exact extract_all_more_fuel 6 fuel (by omega) _ _ _ x4

/-- C9 (amended): in the min-heap scenario on integers (push 5, 3, 8, 1, 4; pop;
push 0), the rounds of `top()` and `pop()` that follow extract the remaining elements
in the order 0, 3, 4, 5, 8: after four rounds 0, 3, 4, 5 are extracted, the heap holds
8 and `empty()` is false; after the fifth round `empty()` is true. -/
theorem scenario_extraction (fuel : Nat) (hf : 5 < fuel) :
    (∃ h4, (run fuel scenario_push_zero binary_min_heap).bind (extract_all fuel 4) =
        .ok ([0, 3, 4, 5], h4) ∧ h4.container = [8] ∧ h4.empty = false) ∧
    (∃ h5, (run fuel scenario_push_zero binary_min_heap).bind (extract_all fuel 5) =
        .ok ([0, 3, 4, 5, 8], h5) ∧ h5.empty = true) := by
  have e3 : run 6 scenario_push_zero binary_min_heap = .ok ⟨[0, 3, 8, 5, 4], std_less⟩ := rfl
  have x4 : extract_all 6 4 ⟨[0, 3, 8, 5, 4], std_less⟩ =
      .ok ([0, 3, 4, 5], ⟨[8], std_less⟩) := rfl
  have x5 : extract_all 6 5 ⟨[0, 3, 8, 5, 4], std_less⟩ =
      .ok ([0, 3, 4, 5, 8], ⟨[], std_less⟩) := rfl
  rw [run_more_fuel 6 fuel (by omega) _ _ _ e3]
  refine ⟨⟨⟨[8], std_less⟩, ?_, rfl, rfl⟩, ⟨⟨[], std_less⟩, ?_, rfl⟩⟩
  · exact extract_all_more_fuel 6 fuel (by omega) _ _ _ x4
  · exact extract_all_more_fuel 6 fuel (by omega) _ _ _ x5

theorem scenario_extraction_witness :
    (∃ h4, (run 6 scenario_push_zero binary_min_heap).bind (extract_all 6 4) =
        .ok ([0, 3, 4, 5], h4) ∧ h4.container = [8] ∧ h4.empty = false) ∧
    (∃ h5, (run 6 scenario_push_zero binary_min_heap).bind (extract_all 6 5) =
        .ok ([0, 3, 4, 5, 8], h5) ∧ h5.empty = true) :=
  scenario_extraction 6 (by decide)

/-- C10: for any two heaps `a` and `b`, after `a.swap(b)` the backing sequence and the
ordering predicate of `a` are exactly those `b` had before (the same elements at the
same indices) and vice versa, and swapping twice restores both heaps. -/
theorem swap_exchanges {α : Type} (a b : binary_heap α) :
    (a.swap b).1 = b ∧ (a.swap b).2 = a ∧
    (a.swap b).1.container = b.container ∧ (a.swap b).1.compare = b.compare ∧
    (a.swap b).2.container = a.container ∧ (a.swap b).2.compare = a.compare ∧
    (∀ i : Nat, (a.swap b).1.container[i]? = b.container[i]? ∧
      (a.swap b).2.container[i]? = a.container[i]?) ∧
    (a.swap b).1.swap (a.swap b).2 = (a, b) :=
  ⟨rfl, rfl, rfl, rfl, rfl, rfl, fun _ => ⟨rfl, rfl⟩, rfl⟩

/-! ## Faults of the two loops -/

/-- The sift-up loop started at a live index never indexes out of range, whatever the
predicate and the fuel. -/
theorem up_loop_in_range {α : Type} (less : α → α → Bool) :
    ∀ (fuel : Nat) (xs : List α) (k : Nat), k < xs.length →
      enforce_heap_property_up_loop less fuel xs k ≠ .error .out_of_range := by
  intro fuel
  induction fuel with
  | zero => intro xs k _; simp [enforce_heap_property_up_loop]
  | succ fuel ih =>
    intro xs k hk
    obtain ⟨a, b, -, hb, h | ⟨-, ys, -, hl, -, -, hrec⟩⟩ := up_loop_step less fuel xs k hk
    · rw [h.2]; simp
    · rw [hrec]
      exact ih ys _ (by rw [hl]; exact get_lt_length hb)

/-- The sift-down loop never indexes out of range, whatever the predicate, the fuel
and the index it is started at. -/
theorem down_loop_in_range {α : Type} (less : α → α → Bool) :
    ∀ (fuel : Nat) (xs : List α) (k : Nat),
      enforce_heap_property_down_loop less fuel xs k ≠ .error .out_of_range := by
  intro fuel
  induction fuel with
  | zero => intro xs k; simp [enforce_heap_property_down_loop]
  | succ fuel ih =>
    intro xs k
    rcases down_loop_step less fuel xs k with ⟨-, h⟩ | ⟨-, -, ys, -, -, -, -, hrec⟩
    · rw [h]; simp
    · rw [hrec]
      exact ih ys _

theorem map_ne_error {α β : Type} {f : α → β} {r : Except Fault α} {e : Fault}
    (h : r ≠ .error e) : r.map f ≠ .error e := by
  cases r with
  | error e2 =>
    simp only [Except.map]
    intro h2
    apply h
    injection h2 with h2
    rw [h2]
  | ok a => simp [Except.map]

theorem push_in_range {α : Type} (fuel : Nat) (h : binary_heap α) (v : α) :
    h.push fuel v ≠ .error .out_of_range := by
  rw [push_eq]
  exact map_ne_error (up_loop_in_range h.compare fuel _ _ (by simp))

theorem pop_in_range {α : Type} (fuel : Nat) (h : binary_heap α) (hne : h.container ≠ []) :
    h.pop fuel ≠ .error .out_of_range := by
  cases hc : h.container with
  | nil => exact absurd hc hne
  | cons a t =>
    rw [pop_eq fuel h a t hc]
    exact map_ne_error (down_loop_in_range h.compare fuel _ _)

/-- At the root the sift-up loop of an irreflexive predicate compares the root with
itself and stops. -/
theorem up_loop_at_root {α : Type} (less : α → α → Bool) (hirr : irreflexive less)
    (fuel : Nat) (xs : List α) (hne : xs ≠ []) :
    enforce_heap_property_up_loop less (fuel + 1) xs 0 = .ok xs := by
  have h0 : 0 < xs.length := List.length_pos.mpr hne
  obtain ⟨a, b, ha, hb, h | ⟨hc, -⟩⟩ := up_loop_step less fuel xs 0 h0
  · exact h.2
  · rw [parent_zero, ha] at hb
    cases hb
    rw [hirr a] at hc
    exact absurd hc (by simp)

/-- Under a predicate that is not irreflexive the sift-up loop need not stop: with the
predicate that always answers `true`, `push` onto the empty heap exhausts any fuel. -/
theorem push_never_returns_example (fuel : Nat) :
    binary_heap.push fuel ⟨[], fun (_ _ : Nat) => true⟩ 7 = .error .out_of_fuel := by
  rw [push_eq]
  have : ∀ n, enforce_heap_property_up_loop (fun (_ _ : Nat) => true) n [7] 0 =
      .error .out_of_fuel := by
    intro n
    induction n with
    | zero => rfl
    | succ n ih =>
      obtain ⟨a, b, ha, hb, h | ⟨-, ys, hs, -, -, -, hrec⟩⟩ :=
        up_loop_step (fun (_ _ : Nat) => true) n [7] 0 (by simp)
      · exact absurd h.1 (by simp)
      · have : ys = [7] := by
          have e : swap_at [7] 0 (get_parent_index 0) = .ok [7] := rfl
          rw [e] at hs
          cases hs
          rfl
        subst this
        rw [hrec]
        exact ih
  simp only [List.nil_append, List.length_nil]
  rw [this]
  rfl

/-- C11: `push` and `pop` are total under their preconditions.  Given fuel above the
size, `push` returns for every irreflexive predicate, every backing sequence and every
value: `get_parent_index(0) = 0`, so at the root the loop compares the root with
itself and stops.  `pop` returns on every non-empty sequence, whatever the predicate:
the index the sift-down moves to is strictly larger and below the size. -/
theorem push_pop_total {α : Type} (h : binary_heap α) (v : α) (fuel : Nat)
    (hf : h.container.length < fuel) :
    (irreflexive h.compare → ∃ h2, h.push fuel v = .ok h2) ∧
    (h.container ≠ [] → ∃ h2, h.pop fuel = .ok h2) ∧
    get_parent_index 0 = 0 ∧
    (irreflexive h.compare → ∀ (xs : List α) (n : Nat), xs ≠ [] →
      enforce_heap_property_up_loop h.compare (n + 1) xs 0 = .ok xs) ∧
    (∀ (xs : List α) (k : Nat), down_select h.compare xs k = k ∨
      (k < down_select h.compare xs k ∧ down_select h.compare xs k < xs.length)) := by
  refine ⟨?_, ?_, rfl, ?_, ?_⟩
  · intro hirr
    obtain ⟨ys, hy, -, -⟩ := push_returns fuel h v hirr hf
    exact ⟨_, hy⟩
  · intro hne
    cases hc : h.container with
    | nil => exact absurd hc hne
    | cons a t =>
      obtain ⟨ys, hy, -, -⟩ := pop_returns fuel h a t hc (by omega)
      exact ⟨_, hy⟩
  · intro hirr xs n hne
    exact up_loop_at_root h.compare hirr n xs hne
  · intro xs k
    exact down_select_range h.compare xs k

theorem push_pop_total_witness :
    (∃ h2, binary_heap.push 4 ⟨[1, 3, 2], std_less⟩ 0 = .ok h2) ∧
    (∃ h2, binary_heap.pop 4 ⟨[1, 3, 2], std_less⟩ = .ok h2) :=
  have hw := push_pop_total ⟨[1, 3, 2], std_less⟩ 0 4 (by decide)
  ⟨hw.1 std_less_irreflexive, hw.2.1 (by simp)⟩

/-- C12: for every ordering predicate whatsoever and every backing sequence, no
element access made by `push` (append, then sift-up from the last index) or by `pop`
on a non-empty sequence (overwrite the root, remove the last slot, sift-down from
index 0, also when the sequence becomes empty) is out of range: with checked indexing
the out-of-range fault is never reached, for any fuel. -/
theorem accesses_in_range {α : Type} (h : binary_heap α) (v : α) (fuel : Nat) :
    h.push fuel v ≠ .error .out_of_range ∧
    (h.container ≠ [] → h.pop fuel ≠ .error .out_of_range) ∧
    (∀ (xs : List α) (k : Nat), k < xs.length →
      enforce_heap_property_up h.compare fuel xs k ≠ .error .out_of_range) ∧
    (∀ (xs : List α) (k : Nat),
      enforce_heap_property_down h.compare fuel xs k ≠ .error .out_of_range) :=
  ⟨push_in_range fuel h v, pop_in_range fuel h,
    fun xs k hk => up_loop_in_range h.compare fuel xs k hk,
    fun xs k => down_loop_in_range h.compare fuel xs k⟩

theorem accesses_in_range_witness :
    binary_heap.push 9 ⟨[4, 1, 6], fun (_ _ : Nat) => true⟩ 5 ≠ .error .out_of_range ∧
    binary_heap.pop 9 ⟨[4, 1, 6], fun (_ _ : Nat) => true⟩ ≠ .error .out_of_range :=
  have hw := accesses_in_range ⟨[4, 1, 6], fun (_ _ : Nat) => true⟩ 5 9
  ⟨hw.1, hw.2.1 (by simp)⟩

/-- C13: in one sift-down step at a node whose left and right children both exist and
both strictly outrank the node, the node is exchanged with the right child if
`less(right, left)` holds and with the left child otherwise (so with the left child
when the two children tie), and the loop continues from that child's index. -/
theorem sift_down_step_both_children {α : Type} (less : α → α → Bool) (fuel : Nat)
    (xs : List α) (k : Nat) (node left right : α)
    (hnode : xs[k]? = some node) (hleft : xs[get_left_index k]? = some left)
    (hright : xs[get_right_index k]? = some right)
    (hl : less left node = true) (_hr : less right node = true) :
    ∃ ys, swap_at xs k (if less right left then get_right_index k else get_left_index k) =
        .ok ys ∧
      ys[k]? = some (if less right left then right else left) ∧
      ys[if less right left then get_right_index k else get_left_index k]? = some node ∧
      ys[if less right left then get_left_index k else get_right_index k]? =
        some (if less right left then left else right) ∧
      enforce_heap_property_down_loop less (fuel + 1) xs k =
        enforce_heap_property_down_loop less fuel ys
          (if less right left then get_right_index k else get_left_index k) := by
  have hkl : k ≠ get_left_index k := by unfold get_left_index; omega
  have hkr : k ≠ get_right_index k := by unfold get_right_index; omega
  have hlr : get_left_index k ≠ get_right_index k := by
    unfold get_left_index get_right_index; omega
  have hsel : down_select less xs k =
      if less right left then get_right_index k else get_left_index k := by
    unfold down_select
    simp only [outranks_eq hleft hnode, hl, if_true, outranks_eq hright hleft]
  rcases down_loop_step less fuel xs k with ⟨hn, -⟩ | ⟨-, -, ys, hs, -, hg, -, hrec⟩
  · rw [hsel] at hn
    split at hn
    · exact absurd hn.symm hkr
    · exact absurd hn.symm hkl
  · rw [hsel] at hs hg hrec
    refine ⟨ys, hs, ?_, ?_, ?_, hrec⟩
    · rw [hg]
      cases hc : less right left
      · simp [exchanged, hleft]
      · simp [exchanged, hright]
    · rw [hg]
      cases hc : less right left
      · simp [exchanged, hnode, Ne.symm hkl]
      · simp [exchanged, hnode, Ne.symm hkr]
    · rw [hg]
      cases hc : less right left
      · simp [exchanged, hright, Ne.symm hkr, Ne.symm hlr]
      · simp [exchanged, hleft, Ne.symm hkl, hlr]

theorem sift_down_step_both_children_witness :
    ∃ ys, swap_at ([9, 4, 4, 7] : List Int) 0 (get_left_index 0) = .ok ys ∧
      ys[0]? = some 4 ∧ ys[get_left_index 0]? = some 9 ∧
      ys[get_right_index 0]? = some 4 ∧
      enforce_heap_property_down_loop std_less (5 + 1) [9, 4, 4, 7] 0 =
        enforce_heap_property_down_loop std_less 5 ys (get_left_index 0) :=
  sift_down_step_both_children std_less 5 [9, 4, 4, 7] 0 9 4 4 rfl rfl rfl
    (by decide) (by decide)

/-- C14: for every ordering predicate and every non-empty backing sequence, `pop()`
returns (given fuel of at least the size) and removes the former root: the old
sequence is a rearrangement of the old `seq[0]` followed by the new sequence, so
exactly one occurrence of the old root is gone and no other element is lost or
duplicated. -/
theorem pop_removes_root {α : Type} (h : binary_heap α) (fuel : Nat)
    (hne : h.container ≠ []) (hf : h.container.length ≤ fuel) :
    ∃ root h2, h.container[0]? = some root ∧ h.top = .ok root ∧ h.pop fuel = .ok h2 ∧
      h2.size + 1 = h.size ∧ h.container.Perm (root :: h2.container) := by
  cases hc : h.container with
  | nil => exact absurd hc hne
  | cons a t =>
    obtain ⟨ys, hy, hl, hperm⟩ := pop_returns fuel h a t hc hf
    have h0 : h.container[0]? = some a := by rw [hc]; simp
    rw [hc] at hperm
    refine ⟨a, _, by simp, at_index_of_get h0, hy, ?_, hperm⟩
    simpa [binary_heap.size] using hl

theorem pop_removes_root_witness :
    ∃ root h2, ([4, 1, 6, 1] : List Nat)[0]? = some root ∧
      binary_heap.top ⟨[4, 1, 6, 1], fun (_ _ : Nat) => true⟩ = .ok root ∧
      binary_heap.pop 4 ⟨[4, 1, 6, 1], fun (_ _ : Nat) => true⟩ = .ok h2 ∧
      h2.size + 1 = 4 ∧ ([4, 1, 6, 1] : List Nat).Perm (root :: h2.container) :=
  pop_removes_root ⟨[4, 1, 6, 1], fun (_ _ : Nat) => true⟩ 4 (by simp) (by decide)

/-- C15: for every irreflexive ordering predicate, every backing sequence and every
value `v`, `push(v)` returns (given fuel above the size) and the new sequence is a
rearrangement of `v` followed by the old sequence: exactly one occurrence of `v` is
added and nothing is dropped or duplicated. -/
theorem push_adds_value {α : Type} (h : binary_heap α) (v : α) (fuel : Nat)
    (hirr : irreflexive h.compare) (hf : h.container.length < fuel) :
    ∃ h2, h.push fuel v = .ok h2 ∧ h2.size = h.size + 1 ∧
      h2.container.Perm (v :: h.container) := by
  obtain ⟨ys, hy, hl, hperm⟩ := push_returns fuel h v hirr hf
  exact ⟨_, hy, hl, hperm⟩

theorem push_adds_value_witness :
    ∃ h2, binary_heap.push 5 ⟨[(3, 3), (1, 5), (3, 3), (2, 2)], pair_less⟩ (0, 0) = .ok h2 ∧
      h2.size = 4 + 1 ∧
      h2.container.Perm ((0, 0) :: [(3, 3), (1, 5), (3, 3), (2, 2)]) :=
  push_adds_value ⟨[(3, 3), (1, 5), (3, 3), (2, 2)], pair_less⟩ (0, 0) 5
    pair_less_irreflexive (by decide)

/-- While the moving value does not outrank the root, the sift-up loop leaves the root
in place, whatever the predicate. -/
theorem up_loop_root_kept {α : Type} (less : α → α → Bool) (v r : α)
    (hvr : less v r = false) :
    ∀ (fuel : Nat) (xs : List α) (k : Nat) (ys : List α), 0 < k → xs[k]? = some v →
      xs[0]? = some r → enforce_heap_property_up_loop less fuel xs k = .ok ys →
      ys[0]? = some r := by
  intro fuel
  induction fuel with
  | zero => intro xs k ys _ _ _ h; simp [enforce_heap_property_up_loop] at h
  | succ fuel ih =>
    intro xs k zs hk0 hv h0 hrun
    obtain ⟨a, b, ha, hb, h | ⟨hc, ys, -, -, hg, -, hrec⟩⟩ :=
      up_loop_step less fuel xs k (get_lt_length hv)
    · rw [h.2] at hrun
      cases hrun
      exact h0
    · rw [hv] at ha
      cases ha
      have hp := parent_lt hk0
      have hp0 : 0 < get_parent_index k := by
        rcases Nat.eq_zero_or_pos (get_parent_index k) with e | e
        · rw [e, h0] at hb
          cases hb
          rw [hvr] at hc
          exact absurd hc (by simp)
        · exact e
      rw [hrec] at hrun
      refine ih ys _ zs hp0 ?_ ?_ hrun
      · rw [hg]
        have e : exchanged k (get_parent_index k) (get_parent_index k) = k := by
          unfold exchanged
          rw [if_neg (by omega), if_pos rfl]
        rw [e]
        exact hv
      · rw [hg]
        have e : exchanged k (get_parent_index k) 0 = 0 := by
          unfold exchanged
          rw [if_neg (by omega), if_neg (by omega)]
        rw [e]
        exact h0

/-- When the moving value outranks every other element, the sift-up loop of an
irreflexive predicate carries it to the root. -/
theorem up_loop_root_new {α : Type} (less : α → α → Bool) (hirr : irreflexive less)
    (v : α) :
    ∀ (fuel : Nat) (xs : List α) (k : Nat) (ys : List α), xs[k]? = some v →
      (∀ (i : Nat) (x : α), i ≠ k → xs[i]? = some x → less v x = true) →
      enforce_heap_property_up_loop less fuel xs k = .ok ys → ys[0]? = some v := by
  intro fuel
  induction fuel with
  | zero => intro xs k ys _ _ h; simp [enforce_heap_property_up_loop] at h
  | succ fuel ih =>
    intro xs k zs hv hall hrun
    obtain ⟨a, b, ha, hb, h | ⟨hc, ys, -, -, hg, -, hrec⟩⟩ :=
      up_loop_step less fuel xs k (get_lt_length hv)
    · rw [h.2] at hrun
      cases hrun
      rw [hv] at ha
      cases ha
      rcases Nat.eq_zero_or_pos k with e | e
      · subst e
        exact hv
      · have hp := parent_lt e
        have := hall (get_parent_index k) b (by omega) hb
        rw [h.1] at this
        exact absurd this (by simp)
    · rw [hv] at ha
      cases ha
      have hk0 : 0 < k := by
        rcases Nat.eq_zero_or_pos k with e | e
        · subst e
          rw [parent_zero, hv] at hb
          cases hb
          rw [hirr v] at hc
          exact absurd hc (by simp)
        · exact e
      have hp := parent_lt hk0
      rw [hrec] at hrun
      refine ih ys _ zs ?_ ?_ hrun
      · rw [hg]
        have e : exchanged k (get_parent_index k) (get_parent_index k) = k := by
          unfold exchanged
          rw [if_neg (by omega), if_pos rfl]
        rw [e]
        exact hv
      · intro i x hi hx
        rw [hg] at hx
        refine hall _ x ?_ hx
        unfold exchanged
        by_cases h1 : i = k
        · rw [if_pos h1]
          omega
        · rw [if_neg h1, if_neg hi]
          exact h1

/-- C16: for a strict weak ordering and every non-empty backing sequence that
satisfies the heap property, `push(v)` returns (given fuel above the size) and `top()`
afterwards is `v` when `less(v, old top)` holds and is the old top otherwise. -/
theorem top_after_push {α : Type} (h : binary_heap α) (v : α) (fuel : Nat)
    (hirr : irreflexive h.compare) (_htr : transitive h.compare)
    (hnt : incomparability_transitive h.compare) (hne : h.container ≠ [])
    (hh : heap_property h.compare h.container) (hf : h.container.length < fuel) :
    ∃ r h2, h.top = .ok r ∧ h.push fuel v = .ok h2 ∧
      h2.top = .ok (if h.compare v r then v else r) := by
  cases hc : h.container with
  | nil => exact absurd hc hne
  | cons r t =>
    have h0 : h.container[0]? = some r := by rw [hc]; simp
    obtain ⟨ys, hy, -, -⟩ := push_returns fuel h v hirr hf
    refine ⟨r, _, at_index_of_get h0, hy, ?_⟩
    have hrun := hy
    rw [push_eq] at hrun
    obtain ⟨zs, hz, he⟩ := map_eq_ok hrun
    have hzy : zs = ys := congrArg binary_heap.container he
    subst hzy
    have hlen : 0 < h.container.length := by rw [hc]; simp
    have hv : (h.container ++ [v])[h.container.length]? = some v := by simp
    have hr0 : (h.container ++ [v])[0]? = some r := by
      rw [List.getElem?_append_left hlen]
      exact h0
    apply at_index_of_get
    cases hvr : h.compare v r
    · exact up_loop_root_kept h.compare v r hvr fuel _ _ zs hlen hv hr0 hz
    · refine up_loop_root_new h.compare hirr v fuel _ _ zs hv ?_ hz
      intro i x hi hx
      have hil : i < h.container.length := by
        have := get_lt_length hx
        simp only [List.length_append, List.length_singleton] at this
        omega
      rw [List.getElem?_append_left hil] at hx
      have hxr := heap_root_extreme h.compare hirr hnt h.container hh r h0 i x hx
      cases hvx : h.compare v x
      · rw [hnt v x r hvx hxr] at hvr
        exact absurd hvr (by simp)
      · rfl

theorem top_after_push_witness :
    ∃ r h2, binary_heap.top ⟨[3, 5, 4], std_less⟩ = .ok r ∧
      binary_heap.push 4 ⟨[3, 5, 4], std_less⟩ 1 = .ok h2 ∧
      h2.top = .ok (if std_less 1 r then 1 else r) :=
  top_after_push ⟨[3, 5, 4], std_less⟩ 1 4 std_less_irreflexive std_less_transitive
    std_less_incomparability (by simp) (by decide) (by decide)

theorem ancestor_within_iff (j : Nat) :
    ∀ (t n : Nat), ancestor_within t j n = true ↔ ∃ s, s ≤ t ∧ get_parent_index^[s] n = j := by
  intro t
  induction t with
  | zero =>
    intro n
    simp only [ancestor_within, decide_eq_true_eq]
    constructor
    · intro h
      exact ⟨0, le_refl _, h.symm⟩
    · rintro ⟨s, hs, h⟩
      have : s = 0 := by omega
      subst this
      exact h.symm
  | succ t ih =>
    intro n
    simp only [ancestor_within, Bool.or_eq_true, decide_eq_true_eq]
    constructor
    · rintro (h | h)
      · exact ⟨0, by omega, h.symm⟩
      · obtain ⟨s, hs, h⟩ := (ih _).mp h
        exact ⟨s + 1, by omega, by rw [Function.iterate_succ_apply]; exact h⟩
    · rintro ⟨s, hs, h⟩
      cases s with
      | zero => exact Or.inl h.symm
      | succ s =>
        rw [Function.iterate_succ_apply] at h
        exact Or.inr ((ih _).mpr ⟨s, by omega, h⟩)

theorem iterate_parent_bound (n : Nat) :
    ∀ s, get_parent_index^[s] n = 0 ∨ get_parent_index^[s] n + s ≤ n := by
  intro s
  induction s with
  | zero => right; simp
  | succ s ih =>
    rw [Function.iterate_succ_apply']
    rcases ih with h | h
    · left
      rw [h]
      rfl
    · rcases Nat.eq_zero_or_pos (get_parent_index^[s] n) with e | e
      · left
        rw [e]
        rfl
      · right
        have := parent_lt e
        omega

/-- The check `is_ancestor` decides reachability by repeated `get_parent_index`. -/
theorem is_ancestor_iff (j n : Nat) :
    is_ancestor j n = true ↔ ∃ t, get_parent_index^[t] n = j := by
  unfold is_ancestor
  rw [ancestor_within_iff]
  constructor
  · rintro ⟨s, -, h⟩
    exact ⟨s, h⟩
  · rintro ⟨t, h⟩
    by_cases ht : t ≤ n
    · exact ⟨t, ht, h⟩
    · refine ⟨n, le_refl _, ?_⟩
      have h1 : get_parent_index^[t] n = 0 := by
        rcases iterate_parent_bound n t with e | e
        · exact e
        · omega
      have h2 : get_parent_index^[n] n = 0 := by
        rcases iterate_parent_bound n n with e | e
        · exact e
        · omega
      rw [h2, ← h, h1]

/-- The sift-up loop started at index `k` alters no position that is not reachable
from `k` by repeated `get_parent_index`, whatever the predicate. -/
theorem up_loop_frame {α : Type} (less : α → α → Bool) (j : Nat) :
    ∀ (fuel : Nat) (xs : List α) (k : Nat) (ys : List α),
      enforce_heap_property_up_loop less fuel xs k = .ok ys →
      (∀ t, get_parent_index^[t] k ≠ j) → ys[j]? = xs[j]? := by
  intro fuel
  induction fuel with
  | zero => intro xs k ys h; simp [enforce_heap_property_up_loop] at h
  | succ fuel ih =>
    intro xs k zs hrun hna
    by_cases hk : k < xs.length
    · obtain ⟨a, b, -, -, h | ⟨-, ys, -, -, hg, -, hrec⟩⟩ := up_loop_step less fuel xs k hk
      · rw [h.2] at hrun
        cases hrun
        rfl
      · rw [hrec] at hrun
        have h0 : k ≠ j := hna 0
        have h1 : get_parent_index k ≠ j := hna 1
        have hrest := ih ys _ zs hrun (fun t => by
          have := hna (t + 1)
          rw [Function.iterate_succ_apply] at this
          exact this)
        rw [hrest, hg]
        unfold exchanged
        rw [if_neg (Ne.symm h0), if_neg (Ne.symm h1)]
    · exact absurd hrun (up_loop_out_of_range less _ xs k (by omega) zs)

/-- C17: `push(v)` only alters positions on the path from the new last index to the
root.  For every irreflexive predicate and every backing sequence of size `n`,
`push(v)` returns (given fuel above the size), and every index `j < n` that is not
reachable from `n` by repeated `get_parent_index` holds the same element after
`push(v)` as before. -/
theorem push_frame {α : Type} (h : binary_heap α) (v : α) (fuel : Nat) (j : Nat)
    (hirr : irreflexive h.compare) (hf : h.container.length < fuel)
    (hj : j < h.container.length)
    (hna : ∀ t, get_parent_index^[t] h.container.length ≠ j) :
    ∃ h2, h.push fuel v = .ok h2 ∧ h2.container[j]? = h.container[j]? := by
  obtain ⟨ys, hy, -, -⟩ := push_returns fuel h v hirr hf
  refine ⟨_, hy, ?_⟩
  have hrun := hy
  rw [push_eq] at hrun
  obtain ⟨zs, hz, he⟩ := map_eq_ok hrun
  have hzy : zs = ys := congrArg binary_heap.container he
  subst hzy
  have := up_loop_frame h.compare j fuel _ _ zs hz hna
  rw [List.getElem?_append_left hj] at this
  exact this

theorem push_frame_witness :
    is_ancestor 3 4 = false ∧
    ∃ h2, binary_heap.push 5 ⟨[1, 3, 2, 7], std_less⟩ 0 = .ok h2 ∧
      h2.container[3]? = ([1, 3, 2, 7] : List Int)[3]? :=
  ⟨by decide, push_frame ⟨[1, 3, 2, 7], std_less⟩ 0 5 3 std_less_irreflexive (by decide)
    (by decide) (fun t ht => absurd ((is_ancestor_iff 3 4).mpr ⟨t, ht⟩) (by decide))⟩

/-- In a `size_type` of 8 bits the children indices of 128 are not representable:
`get_left_index` wraps to 1, whose parent is 0. -/
theorem index_wrap_example :
    get_left_index_wrapping 8 128 = 1 ∧ get_parent_index (get_left_index_wrapping 8 128) = 0 := by
  decide

/-- C18: the index helpers are mutually consistent.  For every index `i` whose children
indices `2i+1` and `2i+2` are representable in a `size_type` of `w` bits, the wrapping
arithmetic of `get_left_index` and `get_right_index` gives `2i+1` and `2i+2`, and
`get_parent_index` of either is `i`; `get_parent_index(0) = 0`; and for every `i > 0`,
`get_parent_index(i) < i`. -/
theorem index_helpers_consistent (w i : Nat) (hrep : i * 2 + 2 < 2 ^ w) :
    get_left_index_wrapping w i = i * 2 + 1 ∧
    get_right_index_wrapping w i = i * 2 + 2 ∧
    get_left_index_wrapping w i = get_left_index i ∧
    get_right_index_wrapping w i = get_right_index i ∧
    get_parent_index (get_left_index_wrapping w i) = i ∧
    get_parent_index (get_right_index_wrapping w i) = i ∧
    get_parent_index 0 = 0 ∧
    (∀ m, 0 < m → get_parent_index m < m) := by
  have e0 : size_type_wrap w (i * 2) = i * 2 := Nat.mod_eq_of_lt (by omega)
  have e1 : get_left_index_wrapping w i = i * 2 + 1 := by
    unfold get_left_index_wrapping
    rw [e0]
    exact Nat.mod_eq_of_lt (by omega)
  have e2 : get_right_index_wrapping w i = i * 2 + 2 := by
    unfold get_right_index_wrapping
    rw [e0]
    exact Nat.mod_eq_of_lt (by omega)
  refine ⟨e1, e2, e1, e2, ?_, ?_, rfl, fun m hm => parent_lt hm⟩
  · rw [e1]
    exact (parent_eq_iff (by omega)).mpr (Or.inl rfl)
  · rw [e2]
    exact (parent_eq_iff (by omega)).mpr (Or.inr rfl)

theorem index_helpers_consistent_witness :
    get_left_index_wrapping 8 126 = 126 * 2 + 1 ∧
    get_right_index_wrapping 8 126 = 126 * 2 + 2 ∧
    get_left_index_wrapping 8 126 = get_left_index 126 ∧
    get_right_index_wrapping 8 126 = get_right_index 126 ∧
    get_parent_index (get_left_index_wrapping 8 126) = 126 ∧
    get_parent_index (get_right_index_wrapping 8 126) = 126 ∧
    get_parent_index 0 = 0 ∧
    (∀ m, 0 < m → get_parent_index m < m) :=
  index_helpers_consistent 8 126 (by decide)

end Pharap
